import Mathlib

/-!
Verification development for the Gemini audio transcription service
(`services/geminiService.ts`).  The TypeScript source is shallowly embedded:
strings are modelled as `List Char`, JavaScript exceptions as `Except JsErr`,
and `JSON.parse` as an executable recursive-descent parser over `List Char`
that follows the JSON grammar accepted by JavaScript engines.  All
definitions are executable, so concrete runs of the code can be settled by
`decide` / `rfl`.
-/

namespace GeminiAudio

/-- JavaScript whitespace as used by `String.prototype.trim` and the regex
class `\s` (the ASCII part plus NBSP and BOM, which covers every input
considered here). -/
def isJsWs (c : Char) : Bool :=
  c = ' ' || c = '\t' || c = '\n' || c = '\x0d' || c = '\x0b' || c = '\x0c' ||
  c = ' ' || c = '﻿'

/-- Line terminators, which the regex metacharacter `.` does not match. -/
def isLineTerm (c : Char) : Bool :=
  c = '\n' || c = '\x0d' || c = ' ' || c = ' '

/-- Characters kept by `ts.replace(/[^\d:.]/g, '')`: digits, colon, period. -/
def keepChar (c : Char) : Bool :=
  c.isDigit || c = ':' || c = '.'

/-- Separator characters of the split `clean.split(/[:.]/)`. -/
def isSepChar (c : Char) : Bool :=
  c = ':' || c = '.'

/-- Drop trailing JavaScript whitespace. -/
def trimTrail (l : List Char) : List Char :=
  (l.reverse.dropWhile isJsWs).reverse

/-- Model of `String.prototype.trim`. -/
def trimL (l : List Char) : List Char :=
  trimTrail (l.dropWhile isJsWs)

/-- Model of `String.prototype.padStart(n, c)`: left-pad to length `n`. -/
def padStartL (l : List Char) (n : Nat) (c : Char) : List Char :=
  List.replicate (n - l.length) c ++ l

/-- Model of `String.prototype.padEnd(n, c)`: right-pad to length `n`. -/
def padEndL (l : List Char) (n : Nat) (c : Char) : List Char :=
  l ++ List.replicate (n - l.length) c

/-- Model of `clean.split(/[:.]/)`: split at every colon/period, keeping
empty pieces, as the JavaScript `split` does (`"" → [""]`). -/
def splitSep : List Char → List (List Char)
  | [] => [[]]
  | c :: cs =>
    if isSepChar c then [] :: splitSep cs
    else
      match splitSep cs with
      | [] => [[c]]
      | p :: ps => (c :: p) :: ps

/-- Decimal digit character for `n < 10`. -/
def digitChar (n : Nat) : Char :=
  Char.ofNat (48 + n)

/-- Decimal digit characters of `n` (model of JavaScript `String(n)` for a
non-negative integer), via an explicit fuel so that it reduces by `decide`. -/
def toDecCharsAux : Nat → Nat → List Char
  | 0, _ => []
  | fuel + 1, n =>
    if n < 10 then [digitChar n]
    else toDecCharsAux fuel (n / 10) ++ [digitChar (n % 10)]

/-- Decimal representation of a natural number as characters. -/
def toDecChars (n : Nat) : List Char :=
  toDecCharsAux (n + 1) n

/-- Numeric value of a list of decimal digit characters (most significant
first); used to interpret the integer/fraction parts of a raw-seconds
timestamp such as "123.456". -/
def digitsVal (l : List Char) : Nat :=
  l.foldl (fun acc c => 10 * acc + (c.toNat - 48)) 0

/-- Test of the raw-seconds branch guard
`/^\d+(\.\d+)?$/.test(raw) && !raw.includes(':')`: one or more digits,
optionally followed by a period and one or more digits.  (The `includes`
conjunct is redundant: the regex already excludes colons.) -/
def isRawSeconds (l : List Char) : Bool :=
  let ds := l.takeWhile Char.isDigit
  ds ≠ [] &&
    (match l.dropWhile Char.isDigit with
     | [] => true
     | '.' :: fs => fs ≠ [] && fs.all Char.isDigit
     | _ => false)

/-- Integer part of a raw-seconds string (`Math.floor` components of
`parseFloat(raw)` depend only on this). -/
def rawIntPart (l : List Char) : Nat :=
  digitsVal (l.takeWhile Char.isDigit)

/-- Fractional digits of a raw-seconds string (after the period). -/
def rawFracDigits (l : List Char) : List Char :=
  match l.dropWhile Char.isDigit with
  | '.' :: fs => fs
  | _ => []

/-- Model of `Math.round((totalSeconds % 1) * 1000)` with the decimal literal
evaluated exactly: for fractional digits `F` (value `F / 10^k`), this is
`round-half-up (F * 1000 / 10^k)`.  `Math.round` rounds halves up. -/
def rawMsRound (fs : List Char) : Nat :=
  let k := fs.length
  let f := digitsVal fs
  if k ≤ 3 then f * 10 ^ (3 - k)
  else (2 * f + 10 ^ (k - 3)) / (2 * 10 ^ (k - 3))

/-- The raw-seconds branch of `normalizeTimestamp` (lines 43-51 of the
source): hours/minutes/seconds by integer division/modulo, milliseconds by
rounding the fractional part, each field `String(x).padStart(width, '0')`
(note: no truncation in this branch). -/
def rawSecondsFormat (l : List Char) : List Char :=
  let n := rawIntPart l
  let h := n / 3600
  let m := (n % 3600) / 60
  let s := n % 60
  let ms := rawMsRound (rawFracDigits l)
  padStartL (toDecChars h) 2 '0' ++ ':' :: padStartL (toDecChars m) 2 '0' ++
    ':' :: padStartL (toDecChars s) 2 '0' ++ '.' :: padStartL (toDecChars ms) 3 '0'

/-- Component-selection of `normalizeTimestamp` (lines 56-70): defaults
`hh = mm = ss = "00"`, `mmm = "000"`, overridden according to the number of
split components, with the three-component case disambiguated by the length
of the last component. -/
def pickComponents (comps : List (List Char)) :
    List Char × List Char × List Char × List Char :=
  match comps with
  | a :: b :: c :: d :: _ => (a, b, c, d)
  | [a, b, c] =>
    if c.length = 3 then (['0', '0'], a, b, c)
    else (a, b, c, ['0', '0', '0'])
  | [a, b] => (['0', '0'], a, b, ['0', '0', '0'])
  | [a] => (['0', '0'], ['0', '0'], a, ['0', '0', '0'])
  | [] => (['0', '0'], ['0', '0'], ['0', '0'], ['0', '0', '0'])

/-- Final formatting of the general branch (line 72): `hh`/`mm`/`ss` are
left-padded to 2 and truncated to 2, `mmm` is right-padded to 3 and
truncated to 3, joined as `HH:MM:SS.mmm`. -/
def formatFields (hh mm ss mmm : List Char) : List Char :=
  (padStartL hh 2 '0').take 2 ++ ':' :: (padStartL mm 2 '0').take 2 ++
    ':' :: (padStartL ss 2 '0').take 2 ++ '.' :: (padEndL mmm 3 '0').take 3

/-- The canonical fallback string `"00:00:00.000"`. -/
def zeroTs : List Char :=
  ['0', '0', ':', '0', '0', ':', '0', '0', '.', '0', '0', '0']

/-- Model of `normalizeTimestamp` (source lines 37-73). -/
def normalizeTimestampL (ts : List Char) : List Char :=
  if ts = [] then zeroTs
  else
    let raw := trimL ts
    if isRawSeconds raw then rawSecondsFormat raw
    else
      let clean := raw.filter keepChar
      let comps := splitSep clean
      match pickComponents comps with
      | (hh, mm, ss, mmm) => formatFields hh mm ss mmm

/-- String-level wrapper of the normalizer. -/
def normalizeTimestamp (ts : String) : String :=
  ⟨normalizeTimestampL ts.data⟩

/-- The bit-exact canonical output format `HH:MM:SS.mmm`: two digits, colon,
two digits, colon, two digits, period, three digits. -/
def isCanonicalFormat (l : List Char) : Bool :=
  match l with
  | [a, b, c, d, e, f, g, h, i, j, k, m] =>
    a.isDigit && b.isDigit && c = ':' && d.isDigit && e.isDigit && f = ':' &&
      g.isDigit && h.isDigit && i = '.' && j.isDigit && k.isDigit && m.isDigit
  | _ => false

/-! ## JSON model

`JSON.parse` is embedded as an executable recursive-descent parser over
`List Char`.  Numbers are kept as their source lexeme (the code never does
arithmetic on parsed numbers, so the lexeme is a faithful representation);
objects keep their member list in source order, and property lookup takes
the last occurrence of a key, as JavaScript object construction does. -/

/-- JavaScript JSON values. -/
inductive JVal where
  | null : JVal
  | bool : Bool → JVal
  | num : List Char → JVal
  | str : List Char → JVal
  | arr : List JVal → JVal
  | obj : List (List Char × JVal) → JVal

/-- JSON whitespace (the only whitespace `JSON.parse` skips). -/
def isJWs (c : Char) : Bool :=
  c = ' ' || c = '\t' || c = '\n' || c = '\x0d'

/-- Value of a hexadecimal digit character, if it is one. -/
def hexVal? (c : Char) : Option Nat :=
  if c.isDigit then some (c.toNat - 48)
  else if 'a' ≤ c && c ≤ 'f' then some (c.toNat - 87)
  else if 'A' ≤ c && c ≤ 'F' then some (c.toNat - 55)
  else none

/-- Single-character JSON string escapes accepted after a backslash. -/
def escMap (c : Char) : Option Char :=
  if c = '"' then some '"'
  else if c = '\\' then some '\\'
  else if c = '/' then some '/'
  else if c = 'b' then some '\x08'
  else if c = 'f' then some '\x0c'
  else if c = 'n' then some '\n'
  else if c = 'r' then some '\x0d'
  else if c = 't' then some '\t'
  else none

/-- Match one expected character. -/
def lexCh (c : Char) : List Char → Option (List Char)
  | [] => none
  | x :: xs => if x = c then some xs else none

/-- Match a literal character sequence. -/
def lexLit : List Char → List Char → Option (List Char)
  | [], l => some l
  | c :: cs, l =>
    match l with
    | [] => none
    | x :: xs => if x = c then lexLit cs xs else none

/-- Parse the body of a JSON string literal after the opening quote, up to
and including the closing quote; returns the decoded characters and the
remaining input.  Unescaped control characters are rejected, as in
`JSON.parse`. -/
def parseStrBody : List Char → Option (List Char × List Char)
  | [] => none
  | c :: rest =>
    if c = '"' then some ([], rest)
    else if c = '\\' then
      match rest with
      | [] => none
      | e :: rest2 =>
        if e = 'u' then
          match rest2 with
          | a :: b :: c2 :: d :: rest3 =>
            (match hexVal? a, hexVal? b, hexVal? c2, hexVal? d with
             | some x, some y, some z, some w =>
               (parseStrBody rest3).map
                 (fun p => (Char.ofNat (4096 * x + 256 * y + 16 * z + w) :: p.1, p.2))
             | _, _, _, _ => none)
          | _ => none
        else
          match escMap e with
          | some c3 => (parseStrBody rest2).map (fun p => (c3 :: p.1, p.2))
          | none => none
    else if c.toNat < 32 then none
    else (parseStrBody rest).map (fun p => (c :: p.1, p.2))

/-- Characters that can occur in a JSON number lexeme. -/
def numChar (c : Char) : Bool :=
  c.isDigit || c = '-' || c = '+' || c = '.' || c = 'e' || c = 'E'

/-- Exponent digits with optional sign: `[+-]?[0-9]+`. -/
def expTail : List Char → Bool
  | [] => false
  | c :: r =>
    if c = '+' || c = '-' then r ≠ [] && r.all Char.isDigit
    else (c :: r).all Char.isDigit

/-- Optional exponent part of a JSON number: empty or `[eE]` + `expTail`. -/
def validExp : List Char → Bool
  | [] => true
  | c :: r =>
    if c = 'e' || c = 'E' then expTail r
    else false

/-- Optional fraction part of a JSON number: empty-then-exponent or
`.[0-9]+` then exponent. -/
def validFrac : List Char → Bool
  | [] => true
  | c :: r =>
    if c = '.' then r.takeWhile Char.isDigit ≠ [] && validExp (r.dropWhile Char.isDigit)
    else validExp (c :: r)

/-- Unsigned part of a JSON number: `(0 | [1-9][0-9]*)` then fraction and
exponent. -/
def validInt : List Char → Bool
  | [] => false
  | c :: r =>
    if c = '0' then validFrac r
    else if c.isDigit then validFrac ((c :: r).dropWhile Char.isDigit)
    else false

/-- Validity of a complete JSON number lexeme:
`-? (0 | [1-9][0-9]*) (\.[0-9]+)? ([eE][+-]?[0-9]+)?`. -/
def validNum : List Char → Bool
  | [] => false
  | c :: r =>
    if c = '-' then validInt r
    else validInt (c :: r)

mutual

/-- Recursive-descent JSON value parser, fuel-indexed for termination.
Skips leading JSON whitespace, then dispatches on the first character;
numbers are lexed by maximal munch over number characters and validated
against the JSON number grammar (equivalent to `JSON.parse` acceptance). -/
def parseVal : Nat → List Char → Option (JVal × List Char)
  | 0, _ => none
  | fuel + 1, l0 =>
    match l0.dropWhile isJWs with
    | [] => none
    | c :: r =>
      if c = 'n' then (lexLit (String.data "ull") r).map (fun r2 => (.null, r2))
      else if c = 't' then (lexLit (String.data "rue") r).map (fun r2 => (.bool true, r2))
      else if c = 'f' then (lexLit (String.data "alse") r).map (fun r2 => (.bool false, r2))
      else if c = '"' then (parseStrBody r).map (fun p => (.str p.1, p.2))
      else if c = '[' then
        (if (r.dropWhile isJWs).head? = some ']' then
          some (.arr [], (r.dropWhile isJWs).tail)
        else (parseElems fuel (r.dropWhile isJWs)).map (fun p => (.arr p.1, p.2)))
      else if c = '\x7b' then
        (if (r.dropWhile isJWs).head? = some '\x7d' then
          some (.obj [], (r.dropWhile isJWs).tail)
        else (parseMembers fuel (r.dropWhile isJWs)).map (fun p => (.obj p.1, p.2)))
      else if c.isDigit || c = '-' then
        (if validNum ((c :: r).takeWhile numChar) then
          some (.num ((c :: r).takeWhile numChar), (c :: r).dropWhile numChar)
        else none)
      else none

/-- Parse one or more comma-separated array elements followed by `]`. -/
def parseElems : Nat → List Char → Option (List JVal × List Char)
  | 0, _ => none
  | fuel + 1, l =>
    (parseVal fuel l).bind fun p =>
      if (p.2.dropWhile isJWs).head? = some ',' then
        (parseElems fuel (p.2.dropWhile isJWs).tail).map (fun p2 => (p.1 :: p2.1, p2.2))
      else if (p.2.dropWhile isJWs).head? = some ']' then
        some ([p.1], (p.2.dropWhile isJWs).tail)
      else none

/-- Parse one or more comma-separated object members followed by the
closing brace. -/
def parseMembers : Nat → List Char → Option (List (List Char × JVal) × List Char)
  | 0, _ => none
  | fuel + 1, l =>
    if (l.dropWhile isJWs).head? = some '"' then
      (parseStrBody (l.dropWhile isJWs).tail).bind fun pk =>
        if (pk.2.dropWhile isJWs).head? = some ':' then
          (parseVal fuel (pk.2.dropWhile isJWs).tail).bind fun pv =>
            if (pv.2.dropWhile isJWs).head? = some ',' then
              (parseMembers fuel (pv.2.dropWhile isJWs).tail).map
                (fun p2 => ((pk.1, pv.1) :: p2.1, p2.2))
            else if (pv.2.dropWhile isJWs).head? = some '\x7d' then
              some ([(pk.1, pv.1)], (pv.2.dropWhile isJWs).tail)
            else none
        else none
    else none

end

/-- Model of `JSON.parse`: parse one value, allow trailing whitespace only.
The fuel `length + 1` is sufficient for every successful parse (each
recursive step first consumes at least one character of input). -/
def jsonParseL (l : List Char) : Option JVal :=
  match parseVal (l.length + 1) l with
  | some (v, r) => if r.dropWhile isJWs = [] then some v else none
  | none => none

/-- Last-occurrence property lookup, as assignment order gives in a
JavaScript object built by `JSON.parse`. -/
def lookupLast (fs : List (List Char × JVal)) (k : List Char) : Option JVal :=
  fs.foldl (fun acc kv => if kv.1 = k then some kv.2 else acc) none

/-- Model of the check `parsed.segments && Array.isArray(parsed.segments)`:
succeeds exactly when the parsed value is an object whose `segments`
property is an array (arrays are always truthy in JavaScript, including the
empty one; on non-objects the property access yields `undefined` or throws,
and either way the tier falls through). -/
def getSegments (v : JVal) : Option (List JVal) :=
  match v with
  | .obj fs =>
    (match lookupLast fs (String.data "segments") with
     | some (.arr xs) => some xs
     | _ => none)
  | _ => none

/-! ## Response recovery engine (`tryRepairJson`, source lines 80-151) -/

/-- A JavaScript exception, reduced to its `name` and `message`. -/
structure JsErr where
  name : List Char
  message : List Char
  deriving DecidableEq

/-- Model of `String.prototype.lastIndexOf` for a single character. -/
def lastIdxOf (c : Char) : List Char → Option Nat
  | [] => none
  | x :: xs =>
    match lastIdxOf c xs with
    | some i => some (i + 1)
    | none => if x = c then some 0 else none

/-- Tier 1: direct parse plus the `segments`-array shape check. -/
def tierOne (t : List Char) : Option (List JVal) :=
  (jsonParseL t).bind getSegments

/-- Tier 2: truncate after the last closing brace, append `"]}"`, re-parse
(source lines 93-105); skipped entirely when the text has no brace. -/
def tierTwo (t : List Char) : Option (List JVal) :=
  match lastIdxOf '\x7d' t with
  | none => none
  | some i => (jsonParseL (t.take (i + 1) ++ [']', '\x7d'])).bind getSegments

/-- The negated character class `[^"]`. -/
def notQuote (c : Char) : Bool :=
  c ≠ '"'

/-- Match `"([^"]+)"`: an opening quote, one or more non-quote characters
(captured), a closing quote.  The greedy character class is deterministic
here: only the maximal munch can be followed by the required quote. -/
def lexQuoted1 : List Char → Option (List Char × List Char)
  | [] => none
  | c0 :: r =>
    if c0 = '"' then
      match r.dropWhile notQuote with
      | '"' :: r2 =>
        if r.takeWhile notQuote = [] then none
        else some (r.takeWhile notQuote, r2)
      | _ => none
    else none

/-- Fuel-indexed worker for the regex string-body match
`(?:[^q\\]|\\.)*q`: the body followed by its closing quote, returning the
raw captured body (with escape sequences left in place) and the rest.
Backtracking never helps for this pattern (each step is forced, and every
earlier stopping point sits on a character the loop consumed, which is not
the quote), so the scan is deterministic; `\\.` fails on line terminators
because the regex `.` does not match them. -/
def lexBodyF : Nat → Char → List Char → Option (List Char × List Char)
  | 0, _, _ => none
  | fuel + 1, q, l =>
    match l with
    | [] => none
    | c :: rest =>
      if c = q then some ([], rest)
      else if c = '\\' then
        match rest with
        | [] => none
        | c2 :: rest2 =>
          if isLineTerm c2 then none
          else (lexBodyF fuel q rest2).map (fun p => (c :: c2 :: p.1, p.2))
      else (lexBodyF fuel q rest).map (fun p => (c :: p.1, p.2))

/-- Regex string-body match (each recursive step consumes input, so
`length + 1` fuel always suffices). -/
def lexBody (q : Char) (l : List Char) : Option (List Char × List Char) :=
  lexBodyF (l.length + 1) q l

/-- Replace every (non-overlapping, left to right) occurrence of the
two-character sequence `x y` by the character `z`; model of
`replace(/\\X/g, 'Y')`. -/
def replaceSeq2 (x y z : Char) : List Char → List Char
  | [] => []
  | [c] => [c]
  | c1 :: c2 :: rest =>
    if c1 = x && c2 = y then z :: replaceSeq2 x y z rest
    else c1 :: replaceSeq2 x y z (c2 :: rest)

/-- Model of `rawText.replace(/"/g, '\\"')`. -/
def escapeQuotes : List Char → List Char
  | [] => []
  | c :: rest =>
    if c = '"' then '\\' :: '"' :: escapeQuotes rest
    else c :: escapeQuotes rest

/-- Unescape a scraped text capture (source lines 130-137): re-parse it as
a double-quoted JSON string literal (after escaping any double quotes), and
if that fails fall back to replacing `\"`, `\'`, `\\` in that order. -/
def unescapeText (raw : List Char) : List Char :=
  match jsonParseL ('"' :: escapeQuotes raw ++ ['"']) with
  | some (.str s) => s
  | _ =>
    replaceSeq2 '\\' '\\' '\\'
      (replaceSeq2 '\\' '\x27' '\x27' (replaceSeq2 '\\' '"' '"' raw))

/-- The value alternative `(?:"((?:[^"\\]|\\.)*)"|\x27((?:[^\x27\\]|\\.)*)\x27)`
of the tier-3 pattern: a double-quoted regex string body, or a single-quoted
one.  The alternation is deterministic: each alternative requires its own
opening quote as the first character. -/
def matchTextValue : List Char → Option (List Char × List Char)
  | [] => none
  | c :: rb =>
    if c = '"' then lexBody '"' rb
    else if c = '\x27' then lexBody '\x27' rb
    else none

/-- One attempted match of the tier-3 segment regex at the head of the
input: `\x7b\s*"startTime"\s*:\s*"([^"]+)"\s*,\s*"endTime"\s*:\s*"([^"]+)"
\s*,\s*"text"\s*:\s*` followed by the quoted text value.  Returns the three
captures (start, end, raw text body) and the input remaining after the
match. -/
def matchSegAt : List Char → Option ((List Char × List Char × List Char) × List Char)
  | [] => none
  | c :: r0 =>
    if c = '\x7b' then
      (lexLit (String.data "\"startTime\"") (r0.dropWhile isJsWs)).bind fun r2 =>
      (lexCh ':' (r2.dropWhile isJsWs)).bind fun r4 =>
      (lexQuoted1 (r4.dropWhile isJsWs)).bind fun p1 =>
      (lexCh ',' (p1.2.dropWhile isJsWs)).bind fun r8 =>
      (lexLit (String.data "\"endTime\"") (r8.dropWhile isJsWs)).bind fun r10 =>
      (lexCh ':' (r10.dropWhile isJsWs)).bind fun r12 =>
      (lexQuoted1 (r12.dropWhile isJsWs)).bind fun p2 =>
      (lexCh ',' (p2.2.dropWhile isJsWs)).bind fun r16 =>
      (lexLit (String.data "\"text\"") (r16.dropWhile isJsWs)).bind fun r18 =>
      (lexCh ':' (r18.dropWhile isJsWs)).bind fun r20 =>
      (matchTextValue (r20.dropWhile isJsWs)).map fun pb =>
        ((p1.1, p2.1, pb.1), pb.2)
    else none

/-- The segment object pushed for one regex match (source lines 139-143):
`startTime` and `endTime` verbatim, `text` unescaped. -/
def segOfMatch (m : List Char × List Char × List Char) : JVal :=
  .obj [(String.data "startTime", .str m.1),
        (String.data "endTime", .str m.2.1),
        (String.data "text", .str (unescapeText m.2.2))]

/-- The `exec` loop: repeatedly find the next match (trying each start
position left to right) and resume after the matched text. -/
def scrapeAux : Nat → List Char → List JVal
  | 0, _ => []
  | _ + 1, [] => []
  | fuel + 1, c :: cs =>
    match matchSegAt (c :: cs) with
    | some (m, rest) => segOfMatch m :: scrapeAux fuel rest
    | none => scrapeAux fuel cs

/-- Tier 3: the regex scrape over the whole (trimmed) text. -/
def scrapeL (l : List Char) : List JVal :=
  scrapeAux l.length l

/-- Position-instrumented variant of the scrape, recording the index at
which each match starts; used to state order preservation. -/
def scrapePosAux : Nat → Nat → List Char → List (JVal × Nat)
  | 0, _, _ => []
  | _ + 1, _, [] => []
  | fuel + 1, i, c :: cs =>
    match matchSegAt (c :: cs) with
    | some (m, rest) =>
      (segOfMatch m, i) :: scrapePosAux fuel (i + ((c :: cs).length - rest.length)) rest
    | none => scrapePosAux fuel (i + 1) cs

/-- Scrape with match positions. -/
def scrapePosL (l : List Char) : List (JVal × Nat) :=
  scrapePosAux l.length 0 l

/-- The error thrown when every recovery tier fails. -/
def repairFailErr : JsErr :=
  ⟨String.data "Error", String.data "Response structure invalid and could not be repaired."⟩

/-- Model of `tryRepairJson` (source lines 80-151): trim, then tier 1
(direct parse), tier 2 (truncation repair), tier 3 (regex scrape); throw
only when all three produce nothing. -/
def tryRepairJsonFn (s : List Char) : Except JsErr (List JVal) :=
  let trimmed := trimL s
  match tierOne trimmed with
  | some segs => .ok segs
  | none =>
    match tierTwo trimmed with
    | some segs => .ok segs
    | none =>
      match scrapeL trimmed with
      | [] => .error repairFailErr
      | seg :: segs => .ok (seg :: segs)

/-- The spec's tier-3 example input: the single-quoted fragment
`\x7b"startTime": "00:00:01.000", "endTime": "00:00:02.000",
"text": 'it\'s ok'\x7d` embedded in otherwise-broken JSON. -/
def c5Input : List Char :=
  String.data
    "bla \x7b\"startTime\": \"00:00:01.000\", \"endTime\": \"00:00:02.000\", \"text\": \x27it\\\x27s ok\x27\x7d bla"

/-! ## Shape characterization of the tier-3 pattern (claim C10) -/

/-- A run of regex whitespace (`\s*`). -/
def IsWsRun (w : List Char) : Prop :=
  ∀ c ∈ w, isJsWs c = true

/-- Validity of a regex string body `(?:[^q\\]|\\.)*`: plain characters are
neither the quote nor a backslash; a backslash must be followed by a
non-line-terminator character. -/
def bodyOk (q : Char) : List Char → Bool
  | [] => true
  | c :: rest =>
    if c = '\\' then
      match rest with
      | [] => false
      | c2 :: rest2 => !isLineTerm c2 && bodyOk q rest2
    else !(c = q) && bodyOk q rest

/-- The exact fragment shape recovered by tier 3 (claim C10): an opening
brace, then the double-quoted keys `"startTime"`, `"endTime"`, `"text"` in
exactly that order, separated only by whitespace runs, colons and commas;
the two timestamp values are non-empty double-quoted strings (no escape
processing, no internal quote); the text value is a double-quoted or
single-quoted regex string body.  `st`, `et`, `body` are the three captures
and `rest` is the input following the match. -/
def Tier3Shape (l st et body rest : List Char) : Prop :=
  ∃ w1 w2 w3 w4 w5 w6 w7 w8 w9 w10 w11,
    IsWsRun w1 ∧ IsWsRun w2 ∧ IsWsRun w3 ∧ IsWsRun w4 ∧ IsWsRun w5 ∧
    IsWsRun w6 ∧ IsWsRun w7 ∧ IsWsRun w8 ∧ IsWsRun w9 ∧ IsWsRun w10 ∧
    IsWsRun w11 ∧
    st ≠ [] ∧ (∀ c ∈ st, c ≠ '"') ∧ et ≠ [] ∧ (∀ c ∈ et, c ≠ '"') ∧
    ((l = '\x7b' :: w1 ++ String.data "\"startTime\"" ++ w2 ++ ':' :: w3 ++
        '"' :: st ++ '"' :: w4 ++ ',' :: w5 ++ String.data "\"endTime\"" ++
        w6 ++ ':' :: w7 ++ '"' :: et ++ '"' :: w8 ++ ',' :: w9 ++
        String.data "\"text\"" ++ w10 ++ ':' :: w11 ++
        '"' :: body ++ '"' :: rest ∧ bodyOk '"' body = true) ∨
     (l = '\x7b' :: w1 ++ String.data "\"startTime\"" ++ w2 ++ ':' :: w3 ++
        '"' :: st ++ '"' :: w4 ++ ',' :: w5 ++ String.data "\"endTime\"" ++
        w6 ++ ':' :: w7 ++ '"' :: et ++ '"' :: w8 ++ ',' :: w9 ++
        String.data "\"text\"" ++ w10 ++ ':' :: w11 ++
        '\x27' :: body ++ '\x27' :: rest ∧ bodyOk '\x27' body = true))

/-! ## A JSON serializer and the parse/serialize round trip (claim C4)

The serializer is not part of the source; it is the instrument used to
state claim C4's input family "a JSON document of the shape
`\x7b"segments": [o1, ..., on, p]\x7d` truncated mid-way through `p`": the
document prefix is produced by serializing arbitrary well-formed JSON
objects `o1 ... on`, and the truncated tail is an arbitrary string.  The
round-trip theorem ties the parser (the model of `JSON.parse`) to this
family. -/

/-- Lower-case hexadecimal digit character for `n < 16`. -/
def hexDigitChar (n : Nat) : Char :=
  if n < 10 then digitChar n else Char.ofNat (87 + n)

/-- JSON string escaping for one character: quote and backslash get a
backslash escape, control characters a `\u00XX` escape, everything else is
emitted verbatim. -/
def escChar (c : Char) : List Char :=
  if c = '"' then ['\\', '"']
  else if c = '\\' then ['\\', '\\']
  else if c.toNat < 32 then
    ['\\', 'u', '0', '0', hexDigitChar (c.toNat / 16), hexDigitChar (c.toNat % 16)]
  else [c]

/-- JSON string escaping. -/
def escStr : List Char → List Char
  | [] => []
  | c :: cs => escChar c ++ escStr cs

mutual

/-- Serialize a JSON value (compact form, no whitespace). -/
def serializeJ : JVal → List Char
  | .null => String.data "null"
  | .bool true => String.data "true"
  | .bool false => String.data "false"
  | .num lex => lex
  | .str s => '"' :: escStr s ++ ['"']
  | .arr es => '[' :: serializeElems es ++ [']']
  | .obj fs => '\x7b' :: serializeFields fs ++ ['\x7d']

/-- Serialize array elements, comma-separated. -/
def serializeElems : List JVal → List Char
  | [] => []
  | [v] => serializeJ v
  | v :: vs => serializeJ v ++ ',' :: serializeElems vs

/-- Serialize object members, comma-separated. -/
def serializeFields : List (List Char × JVal) → List Char
  | [] => []
  | [(k, v)] => '"' :: escStr k ++ '"' :: ':' :: serializeJ v
  | (k, v) :: fs => '"' :: escStr k ++ '"' :: ':' :: serializeJ v ++ ',' :: serializeFields fs

end

mutual

/-- Well-formedness of a JSON value for serialization: every number lexeme
is a valid JSON number. -/
def wfJ : JVal → Bool
  | .null => true
  | .bool _ => true
  | .num lex => validNum lex
  | .str _ => true
  | .arr es => wfElems es
  | .obj fs => wfFields fs

/-- Well-formedness of a list of elements. -/
def wfElems : List JVal → Bool
  | [] => true
  | v :: vs => wfJ v && wfElems vs

/-- Well-formedness of a list of members. -/
def wfFields : List (List Char × JVal) → Bool
  | [] => true
  | kv :: fs => wfJ kv.2 && wfFields fs

end

/-- Guard used in the round trip: after a serialized number, the input must
not continue with a number character (inside arrays and objects the next
character is always a comma or a closing bracket). -/
def restOkNum : List Char → Bool
  | [] => true
  | b :: _ => !numChar b

/-- The truncated-document prefix of claim C4: the serialized document
`\x7b"segments":[o1,...,on]\x7d` with its closing `]\x7d` removed. -/
def segDocPrefix (objs : List JVal) : List Char :=
  String.data "\x7b\"segments\":[" ++ serializeElems objs

/-- An instance of claim C4 as literally stated on which the code fails: the
document `\x7b"segments": [\x7b"a": 1\x7d, \x7b"b": \x7b"c": 2\x7d` is
truncated mid-way through its final object `p = \x7b"b": \x7b"c": 2\x7d...\x7d`
(after `p`'s complete nested sub-object), contains the complete object
`\x7b"a": 1\x7d`, and its direct parse fails — yet tier 2 does not return
that object: the truncation repair cuts at the nested brace, its re-parse
fails, and the whole function throws. -/
def c4BadInput : List Char :=
  String.data "\x7b\"segments\": [\x7b\"a\": 1\x7d, \x7b\"b\": \x7b\"c\": 2\x7d"

/-! ## Transcription and translation clients (`transcribeAudio`,
`translateSegments`, source lines 153-313) -/

/-- The backtick character (code-fence delimiter). -/
def backtickChar : Char := Char.ofNat 96

/-- Is the value truthy in JavaScript?  A parsed number is falsy exactly
when its value is zero, i.e. when every mantissa digit of its lexeme is
`0`. -/
def numLexIsZero (lex : List Char) : Bool :=
  (lex.takeWhile (fun c => c ≠ 'e' && c ≠ 'E')).all (fun c => !c.isDigit || c = '0')

/-- JavaScript truthiness of a parsed JSON value. -/
def jsTruthy : JVal → Bool
  | .null => false
  | .bool b => b
  | .num lex => !numLexIsZero lex
  | .str s => !s.isEmpty
  | .arr _ => true
  | .obj _ => true

/-- A transcription segment produced by the client. -/
structure TSeg where
  startTime : List Char
  endTime : List Char
  text : List Char
  deriving DecidableEq

/-- JavaScript property access on a parsed JSON value: `undefined` (`none`)
on missing keys and on non-object primitives; the throwing `null` case is
handled by the caller. -/
def getProp (v : JVal) (k : List Char) : Option JVal :=
  match v with
  | .obj fs => lookupLast fs k
  | _ => none

mutual

/-- Model of JavaScript `String(x)` on parsed JSON values.  Number
formatting is abstracted by the lexeme (no claim depends on the textual
form of a number). -/
def jsToStr : JVal → List Char
  | .null => String.data "null"
  | .bool true => String.data "true"
  | .bool false => String.data "false"
  | .num lex => lex
  | .str s => s
  | .arr es => jsToStrElems es
  | .obj _ => String.data "[object Object]"

/-- `Array.prototype.join(',')` as used by `String` on arrays: elements
comma-separated, with `null` rendered as the empty string. -/
def jsToStrElems : List JVal → List Char
  | [] => []
  | [.null] => []
  | [v] => jsToStr v
  | .null :: vs => ',' :: jsToStrElems vs
  | v :: vs => jsToStr v ++ ',' :: jsToStrElems vs

end

/-- `String(p)` for a property that may be `undefined`. -/
def jsStringOfProp (p : Option JVal) : List Char :=
  match p with
  | none => String.data "undefined"
  | some v => jsToStr v

/-- The `TypeError` thrown by a property access on `null` (message
abstracted). -/
def typeErr : JsErr := ⟨String.data "TypeError", []⟩

/-- One step of the segment-normalization map (source lines 244-248):
accessing `startTime` on a `null` element throws; otherwise the two
timestamps are normalized and the text is coerced to a string. -/
def segNorm (s : JVal) : Except JsErr TSeg :=
  match s with
  | .null => .error typeErr
  | v =>
    .ok ⟨normalizeTimestampL (jsStringOfProp (getProp v (String.data "startTime"))),
         normalizeTimestampL (jsStringOfProp (getProp v (String.data "endTime"))),
         jsStringOfProp (getProp v (String.data "text"))⟩

/-- `segments.map(...)` with exception propagation. -/
def mapSegsNorm : List JVal → Except JsErr (List TSeg)
  | [] => .ok []
  | s :: rest =>
    match segNorm s with
    | .error e => .error e
    | .ok t =>
      match mapSegsNorm rest with
      | .error e => .error e
      | .ok ts => .ok (t :: ts)

/-- Model of `text.replace(/\s*` + three backticks + `$/, '')`: if the text
ends with a triple backtick, remove it together with the whitespace run
before it. -/
def stripSuffixFence (l : List Char) : List Char :=
  match l.reverse with
  | a :: b :: c :: rest =>
    if a = backtickChar && b = backtickChar && c = backtickChar then
      (rest.dropWhile isJsWs).reverse
    else l
  | _ => l

/-- Model of `text.replace(/^` + three backticks + `json\s*/, '')`. -/
def stripPrefixJsonFence (l : List Char) : List Char :=
  match lexLit (String.data "```json") l with
  | some r => r.dropWhile isJsWs
  | none => l

/-- Model of `text.replace(/^` + three backticks + `\s*/, '')`. -/
def stripPrefixFence (l : List Char) : List Char :=
  match lexLit (String.data "```") l with
  | some r => r.dropWhile isJsWs
  | none => l

/-- The code-fence stripping of the two clients (source lines 235-239 and
301-305): strip a leading fenced block marker tagged `json`, else a plain
one, together with the trailing fence. -/
def stripFences (l : List Char) : List Char :=
  if (lexLit (String.data "```json") l).isSome then
    stripSuffixFence (stripPrefixJsonFence l)
  else if (lexLit (String.data "```") l).isSome then
    stripSuffixFence (stripPrefixFence l)
  else l

/-- The `AbortError` produced by the cancellation promise:
`new DOMException("Aborted", "AbortError")`. -/
def abortErr : JsErr := ⟨String.data "AbortError", String.data "Aborted"⟩

/-- The "empty response" error of `transcribeAudio`. -/
def emptyRespErr : JsErr := ⟨String.data "Error", String.data "Empty response from model"⟩

/-- A provider response: its (possibly absent) text. -/
structure GenResp where
  text : Option (List Char)

/-- The catch clause of `transcribeAudio` (source lines 249-253): an
`AbortError` is rethrown unchanged; every other failure is wrapped into
`new Error(error.message || "Transcription failed")`. -/
def transcribeWrap (e : JsErr) : JsErr :=
  if e.name = String.data "AbortError" then e
  else ⟨String.data "Error",
        if e.message = [] then String.data "Transcription failed" else e.message⟩

/-- The try-block of `transcribeAudio`: the race of the request against the
cancellation promise (modelled by `abortWins`, true exactly when the signal
is already set at call time or fires before the transport settles), then
the response-text check, fence stripping, JSON recovery and per-segment
normalization. -/
def transcribeBody (abortWins : Bool) (transport : Except JsErr GenResp) :
    Except JsErr (List TSeg) :=
  match (if abortWins then Except.error abortErr else transport) with
  | .error e => .error e
  | .ok resp =>
    match resp.text with
    | none => .error emptyRespErr
    | some t =>
      if t = [] then .error emptyRespErr
      else
        match tryRepairJsonFn (stripFences (trimL t)) with
        | .error e => .error e
        | .ok segs => mapSegsNorm segs

/-- Model of `transcribeAudio` (source lines 153-254): the try-block
followed by the catch clause. -/
def transcribeAudioModel (abortWins : Bool) (transport : Except JsErr GenResp) :
    Except JsErr (List TSeg) :=
  match transcribeBody abortWins transport with
  | .ok v => .ok v
  | .error e => .error (transcribeWrap e)

/-- The "empty translation response" error of `translateSegments`. -/
def emptyTransErr : JsErr := ⟨String.data "Error", String.data "Empty translation response"⟩

/-- The `SyntaxError` thrown by `JSON.parse` on malformed input (message
abstracted). -/
def syntaxErr : JsErr := ⟨String.data "SyntaxError", []⟩

/-- Model of `translateSegments` (source lines 256-313): empty/absent
response text throws the translation-specific error; otherwise the text is
fence-stripped and parsed with plain `JSON.parse` (no repair), and
`parsed.segments || []` is returned with no timestamp re-normalization.
The catch clause rethrows the error unchanged. -/
def translateSegmentsModel (respText : Option (List Char)) : Except JsErr JVal :=
  match respText with
  | none => .error emptyTransErr
  | some t =>
    if t = [] then .error emptyTransErr
    else
      match jsonParseL (stripFences (trimL t)) with
      | none => .error syntaxErr
      | some v =>
        match v with
        | .null => .error typeErr
        | .obj fs =>
          (match lookupLast fs (String.data "segments") with
           | some s => if jsTruthy s then .ok s else .ok (.arr [])
           | none => .ok (.arr []))
        | _ => .ok (.arr [])

/-! ## Theorems -/

lemma not_ws_of_digit {c : Char} (h : c.isDigit = true) : isJsWs c = false := by
  cases hw : isJsWs c with
  | false => rfl
  | true =>
    unfold isJsWs at hw
    simp only [Bool.or_eq_true, decide_eq_true_eq] at hw
    rcases hw with ((((((h1 | h1) | h1) | h1) | h1) | h1) | h1) | h1 <;>
      subst h1 <;> exact absurd h (by decide)

lemma not_sep_of_digit {c : Char} (h : c.isDigit = true) : isSepChar c = false := by
  cases hs : isSepChar c with
  | false => rfl
  | true =>
    unfold isSepChar at hs
    simp only [Bool.or_eq_true, decide_eq_true_eq] at hs
    rcases hs with h1 | h1 <;> subst h1 <;> exact absurd h (by decide)

lemma keep_of_digit {c : Char} (h : c.isDigit = true) : keepChar c = true := by
  unfold keepChar
  simp [h]

lemma sep_colon : isSepChar ':' = true := by decide

lemma sep_period : isSepChar '.' = true := by decide

lemma ws_colon : isJsWs ':' = false := by decide

lemma ws_period : isJsWs '.' = false := by decide

lemma keep_colon : keepChar ':' = true := by decide

lemma keep_period : keepChar '.' = true := by decide

lemma digit_colon : Char.isDigit ':' = false := by decide

lemma digit_period : Char.isDigit '.' = false := by decide

/-- Normalizing a string that is already in canonical `HH:MM:SS.mmm` form
returns it unchanged. -/
theorem normalizeL_canonical_fixed (l : List Char) (h : isCanonicalFormat l = true) :
    normalizeTimestampL l = l := by
  unfold isCanonicalFormat at h
  split at h
  next a b c d e f g h' i j k m =>
    simp only [Bool.and_eq_true, decide_eq_true_eq] at h
    obtain ⟨⟨⟨⟨⟨⟨⟨⟨⟨⟨⟨ha, hb⟩, hc⟩, hd⟩, he⟩, hf⟩, hg⟩, hh⟩, hi⟩, hj⟩, hk⟩, hm⟩ := h
    subst hc; subst hf; subst hi
    simp [normalizeTimestampL, trimL, trimTrail, isRawSeconds, splitSep,
      pickComponents, formatFields, padStartL, padEndL,
      List.dropWhile_cons, List.takeWhile_cons, List.filter_cons,
      not_ws_of_digit ha, not_ws_of_digit hb, not_ws_of_digit hd,
      not_ws_of_digit he, not_ws_of_digit hg, not_ws_of_digit hh,
      not_ws_of_digit hj, not_ws_of_digit hk, not_ws_of_digit hm,
      not_sep_of_digit ha, not_sep_of_digit hb, not_sep_of_digit hd,
      not_sep_of_digit he, not_sep_of_digit hg, not_sep_of_digit hh,
      not_sep_of_digit hj, not_sep_of_digit hk, not_sep_of_digit hm,
      keep_of_digit ha, keep_of_digit hb, keep_of_digit hd,
      keep_of_digit he, keep_of_digit hg, keep_of_digit hh,
      keep_of_digit hj, keep_of_digit hk, keep_of_digit hm,
      sep_colon, sep_period, ws_colon, ws_period, keep_colon, keep_period,
      digit_colon, digit_period,
      ha, hb, hd, he, hg, hh, hj, hk, hm]
  next =>
    exact absurd h (by simp)

/-- Claim C2: for every string `s` already in canonical `HH:MM:SS.mmm` form
(two digits, colon, two digits, colon, two digits, period, three digits),
`normalizeTimestamp s = s`, and hence normalization is idempotent on `s`. -/
theorem c2_canonical_idempotent (s : String) (h : isCanonicalFormat s.data = true) :
    normalizeTimestamp s = s ∧
      normalizeTimestamp (normalizeTimestamp s) = normalizeTimestamp s ∧
      normalizeTimestamp (normalizeTimestamp s) = s := by
  have base : normalizeTimestamp s = s := by
    show String.mk (normalizeTimestampL s.data) = s
    rw [normalizeL_canonical_fixed s.data h]
  exact ⟨base, by rw [base]; exact base, by rw [base]; exact base⟩

/-- Witness for C2: the canonical string `"01:02:03.456"` satisfies the
canonical-format hypothesis and is a fixed point of the normalizer. -/
theorem c2_canonical_idempotent_witness :
    isCanonicalFormat (String.data "01:02:03.456") = true ∧
      (normalizeTimestamp "01:02:03.456" = "01:02:03.456" ∧
        normalizeTimestamp (normalizeTimestamp "01:02:03.456") =
          normalizeTimestamp "01:02:03.456" ∧
        normalizeTimestamp (normalizeTimestamp "01:02:03.456") = "01:02:03.456") :=
  ⟨by decide, c2_canonical_idempotent "01:02:03.456" (by decide)⟩

/-- Claim C8: the normalizer satisfies the worked examples of the spec,
including the three-component disambiguation rule (a 3-digit last component
is milliseconds, a shorter one is seconds). -/
theorem c8_worked_examples :
    normalizeTimestamp "123.456" = "00:02:03.456" ∧
      normalizeTimestamp "5:30" = "00:05:30.000" ∧
      normalizeTimestamp "01:02:03:456" = "01:02:03.456" ∧
      normalizeTimestamp "" = "00:00:00.000" ∧
      normalizeTimestamp "7" = "00:00:07.000" ∧
      normalizeTimestamp "02:15.500" = "00:02:15.500" ∧
      normalizeTimestamp "01:02:03" = "01:02:03.000" := by
  refine ⟨?_, ?_, ?_, ?_, ?_, ?_, ?_⟩ <;> decide

/-- Claim C1 fails on the code: on the raw-seconds branch the hour field is
not truncated to two digits (input `"360000"`, i.e. 100 hours) and a
fractional part of at least `0.9995` rounds to the four-character
millisecond field `"1000"` (input `"0.9999"`), so the result is not in the
bit-exact `HH:MM:SS.mmm` format the claim (and the function's own doc
comment) promises. -/
theorem c1_raw_seconds_not_canonical :
    normalizeTimestamp "0.9999" = "00:00:00.1000" ∧
      isCanonicalFormat (normalizeTimestampL (String.data "0.9999")) = false ∧
      normalizeTimestamp "360000" = "100:00:00.000" ∧
      isCanonicalFormat (normalizeTimestampL (String.data "360000")) = false := by
  refine ⟨?_, ?_, ?_, ?_⟩ <;> decide

/-- Claim C3: `tryRepairJson` throws its "structure invalid" error exactly
when all three tiers fail (direct parse yields no segments array, the
truncation repair yields none either, and the scraping pattern finds zero
matches); the only error ever thrown is that one, and whenever at least one
tier succeeds the function returns a segments list without throwing. -/
theorem c3_structure_invalid_iff (s : List Char) :
    ((∃ e, tryRepairJsonFn s = .error e) ↔
      tierOne (trimL s) = none ∧ tierTwo (trimL s) = none ∧ scrapeL (trimL s) = []) ∧
    (∀ e, tryRepairJsonFn s = .error e → e = repairFailErr) ∧
    (((tierOne (trimL s)).isSome = true ∨ (tierTwo (trimL s)).isSome = true ∨
        scrapeL (trimL s) ≠ []) →
      ∃ segs, tryRepairJsonFn s = .ok segs) := by
  rcases h1 : tierOne (trimL s) with _ | segs1 <;>
    rcases h2 : tierTwo (trimL s) with _ | segs2 <;>
      rcases h3 : scrapeL (trimL s) with _ | ⟨seg, segs⟩ <;>
        simp [tryRepairJsonFn, h1, h2, h3]

/-- Witness for C3: on a well-formed input tier 1 succeeds and the function
returns a segments list. -/
theorem c3_structure_invalid_iff_witness :
    ∃ segs, tryRepairJsonFn (String.data "\x7b\"segments\": []\x7d") = .ok segs :=
  (c3_structure_invalid_iff (String.data "\x7b\"segments\": []\x7d")).2.2
    (Or.inl (by rfl))

/-- Claim C5: on the spec's tier-3 example, tiers 1 and 2 fail and the
scrape recovers exactly one segment whose text is the unescaped
`it's ok` (the single-quoted value is matched; the quoted-literal re-parse
fails on the invalid `\'` escape, so the backslash-substitution fallback
applies). -/
theorem c5_single_quote_scrape :
    tierOne (trimL c5Input) = none ∧ tierTwo (trimL c5Input) = none ∧
      tryRepairJsonFn c5Input =
        .ok [.obj [(String.data "startTime", .str (String.data "00:00:01.000")),
                   (String.data "endTime", .str (String.data "00:00:02.000")),
                   (String.data "text", .str (String.data "it\x27s ok"))]] :=
  ⟨rfl, rfl, rfl⟩

lemma ws_decomp (l : List Char) :
    l = l.takeWhile isJsWs ++ l.dropWhile isJsWs ∧ IsWsRun (l.takeWhile isJsWs) :=
  ⟨(List.takeWhile_append_dropWhile isJsWs l).symm,
    fun _ hc => List.mem_takeWhile_imp hc⟩

lemma lexLit_inv (lit : List Char) : ∀ l r, lexLit lit l = some r → l = lit ++ r := by
  induction lit with
  | nil => intro l r h; simpa [lexLit] using h
  | cons c cs ih =>
    intro l r h
    match l with
    | [] => simp [lexLit] at h
    | x :: xs =>
      simp only [lexLit] at h
      by_cases hx : x = c
      · subst hx
        simp only [if_pos rfl] at h
        simpa using ih xs r h
      · simp [hx] at h

lemma lexQuoted1_inv (l w r : List Char) (h : lexQuoted1 l = some (w, r)) :
    l = '"' :: w ++ '"' :: r ∧ w ≠ [] ∧ ∀ c ∈ w, c ≠ '"' := by
  match l with
  | [] => simp [lexQuoted1] at h
  | c0 :: r0 =>
    by_cases hc : c0 = '"'
    · subst hc
      rcases hdw : r0.dropWhile notQuote with _ | ⟨d, r2⟩
      · have h2 : (none : Option (List Char × List Char)) = some (w, r) := by
          rw [← h]; simp [lexQuoted1, hdw]
        exact absurd h2 (by simp)
      · by_cases hd : d = '"'
        · subst hd
          have h2 : (if r0.takeWhile notQuote = [] then none
              else some (r0.takeWhile notQuote, r2)) = some (w, r) := by
            rw [← h]; simp [lexQuoted1, hdw]
          by_cases hw : r0.takeWhile notQuote = []
          · rw [if_pos hw] at h2; exact absurd h2 (by simp)
          · rw [if_neg hw] at h2
            simp only [Option.some.injEq, Prod.mk.injEq] at h2
            obtain ⟨hw1, hr1⟩ := h2
            subst hw1; subst hr1
            refine ⟨?_, hw, ?_⟩
            · have hsplit := List.takeWhile_append_dropWhile notQuote r0
              rw [hdw] at hsplit
              conv_lhs => rw [← hsplit]
              simp
            · intro c hcmem
              have := List.mem_takeWhile_imp hcmem
              simpa [notQuote] using this
        · have h2 : (none : Option (List Char × List Char)) = some (w, r) := by
            rw [← h]
            simp [lexQuoted1, hdw, hd]
          exact absurd h2 (by simp)
    · have h2 : (none : Option (List Char × List Char)) = some (w, r) := by
        rw [← h]; simp [lexQuoted1, hc]
      exact absurd h2 (by simp)

lemma bodyOk_plain (q c : Char) (rest : List Char) (hbs : ¬c = '\\') :
    bodyOk q (c :: rest) = (!(c = q) && bodyOk q rest) := by
  cases rest with
  | nil =>
    show (if c = '\\' then false else !(c = q) && bodyOk q []) = (!(c = q) && bodyOk q [])
    rw [if_neg hbs]
  | cons c2 rest2 =>
    show (if c = '\\' then (!isLineTerm c2 && bodyOk q rest2)
        else !(c = q) && bodyOk q (c2 :: rest2)) = (!(c = q) && bodyOk q (c2 :: rest2))
    rw [if_neg hbs]

lemma lexBodyF_inv (q : Char) : ∀ fuel l b r, lexBodyF fuel q l = some (b, r) →
    l = b ++ q :: r ∧ bodyOk q b = true := by
  intro fuel
  induction fuel with
  | zero => intro l b r h; simp [lexBodyF] at h
  | succ n ih =>
    intro l b r h
    match l with
    | [] => simp [lexBodyF] at h
    | c :: rest =>
      simp only [lexBodyF] at h
      by_cases hq : c = q
      · rw [if_pos hq] at h
        simp only [Option.some.injEq, Prod.mk.injEq] at h
        obtain ⟨hb, hr⟩ := h
        subst hb; subst hr; subst hq
        exact ⟨rfl, rfl⟩
      · rw [if_neg hq] at h
        by_cases hbs : c = '\\'
        · rw [if_pos hbs] at h
          match rest with
          | [] => exact absurd (show (none : Option (List Char × List Char)) = some (b, r) from h) (by simp)
          | c2 :: rest2 =>
            replace h :
                (if isLineTerm c2 = true then none
                 else (lexBodyF n q rest2).map (fun p => (c :: c2 :: p.1, p.2))) =
                  some (b, r) := h
            by_cases hlt : isLineTerm c2 = true
            · rw [if_pos hlt] at h; exact absurd h (by simp)
            · rw [if_neg hlt] at h
              rcases hrec : lexBodyF n q rest2 with _ | ⟨b0, r0⟩
              · rw [hrec] at h; exact absurd h (by simp)
              · rw [hrec] at h
                simp only [Option.map_some', Option.some.injEq, Prod.mk.injEq] at h
                obtain ⟨hb, hr⟩ := h
                subst hb; subst hr; subst hbs
                obtain ⟨h1, h2⟩ := ih rest2 b0 r0 hrec
                rw [h1]
                refine ⟨by simp, ?_⟩
                show (!isLineTerm c2 && bodyOk q b0) = true
                simp [hlt, h2]
        · rw [if_neg hbs] at h
          rcases hrec : lexBodyF n q rest with _ | ⟨b0, r0⟩
          · rw [hrec] at h; exact absurd h (by simp)
          · rw [hrec] at h
            simp only [Option.map_some', Option.some.injEq, Prod.mk.injEq] at h
            obtain ⟨hb, hr⟩ := h
            subst hb; subst hr
            obtain ⟨h1, h2⟩ := ih rest b0 r0 hrec
            rw [h1]
            refine ⟨rfl, ?_⟩
            show bodyOk q (c :: b0) = true
            rw [bodyOk_plain q c b0 hbs]
            simp [hq, h2]

lemma lexBody_inv (q : Char) (l b r : List Char) (h : lexBody q l = some (b, r)) :
    l = b ++ q :: r ∧ bodyOk q b = true :=
  lexBodyF_inv q (l.length + 1) l b r h

lemma lexCh_inv (c : Char) (l r : List Char) (h : lexCh c l = some r) : l = c :: r := by
  match l with
  | [] => simp [lexCh] at h
  | x :: xs =>
    simp only [lexCh] at h
    by_cases hx : x = c
    · subst hx
      rw [if_pos rfl] at h
      simp only [Option.some.injEq] at h
      rw [h]
    · rw [if_neg hx] at h
      exact absurd h (by simp)

lemma ws_split (l : List Char) :
    ∃ w d, l = w ++ d ∧ IsWsRun w ∧ l.dropWhile isJsWs = d :=
  ⟨l.takeWhile isJsWs, l.dropWhile isJsWs,
    (List.takeWhile_append_dropWhile isJsWs l).symm,
    fun _ hc => List.mem_takeWhile_imp hc, rfl⟩

lemma matchTextValue_inv (l body rest : List Char)
    (h : matchTextValue l = some (body, rest)) :
    (l = '"' :: body ++ '"' :: rest ∧ bodyOk '"' body = true) ∨
      (l = '\x27' :: body ++ '\x27' :: rest ∧ bodyOk '\x27' body = true) := by
  match l with
  | [] => simp [matchTextValue] at h
  | c :: rb =>
    simp only [matchTextValue] at h
    by_cases hdq : c = '"'
    · subst hdq
      rw [if_pos rfl] at h
      obtain ⟨h1, h2⟩ := lexBody_inv '"' rb body rest h
      exact Or.inl ⟨by rw [h1]; simp, h2⟩
    · rw [if_neg hdq] at h
      by_cases hsq : c = '\x27'
      · subst hsq
        rw [if_pos rfl] at h
        obtain ⟨h1, h2⟩ := lexBody_inv '\x27' rb body rest h
        exact Or.inr ⟨by rw [h1]; simp, h2⟩
      · rw [if_neg hsq] at h
        exact absurd h (by simp)

lemma matchSegAt_shape (l st et body rest : List Char)
    (h : matchSegAt l = some ((st, et, body), rest)) :
    Tier3Shape l st et body rest := by
  match l with
  | [] => simp [matchSegAt] at h
  | c :: r0 =>
    simp only [matchSegAt] at h
    by_cases hc : c = '\x7b'
    case neg => rw [if_neg hc] at h; exact absurd h (by simp)
    subst hc
    rw [if_pos rfl] at h
    obtain ⟨w1, d1, he1, hws1, hd1⟩ := ws_split r0
    rw [hd1] at h
    rw [Option.bind_eq_some] at h
    obtain ⟨r2, hlit1, h⟩ := h
    have he2 := lexLit_inv _ _ _ hlit1
    obtain ⟨w2, d2, he3, hws2, hd2⟩ := ws_split r2
    rw [hd2] at h
    rw [Option.bind_eq_some] at h
    obtain ⟨r4, hch1, h⟩ := h
    have he4 := lexCh_inv _ _ _ hch1
    obtain ⟨w3, d3, he5, hws3, hd3⟩ := ws_split r4
    rw [hd3] at h
    rw [Option.bind_eq_some] at h
    obtain ⟨p1, hq1, h⟩ := h
    obtain ⟨he6, hst_ne, hst_nq⟩ := lexQuoted1_inv _ _ _ hq1
    obtain ⟨w4, d4, he7, hws4, hd4⟩ := ws_split p1.2
    rw [hd4] at h
    rw [Option.bind_eq_some] at h
    obtain ⟨r8, hch2, h⟩ := h
    have he8 := lexCh_inv _ _ _ hch2
    obtain ⟨w5, d5, he9, hws5, hd5⟩ := ws_split r8
    rw [hd5] at h
    rw [Option.bind_eq_some] at h
    obtain ⟨r10, hlit2, h⟩ := h
    have he10 := lexLit_inv _ _ _ hlit2
    obtain ⟨w6, d6, he11, hws6, hd6⟩ := ws_split r10
    rw [hd6] at h
    rw [Option.bind_eq_some] at h
    obtain ⟨r12, hch3, h⟩ := h
    have he12 := lexCh_inv _ _ _ hch3
    obtain ⟨w7, d7, he13, hws7, hd7⟩ := ws_split r12
    rw [hd7] at h
    rw [Option.bind_eq_some] at h
    obtain ⟨p2, hq2, h⟩ := h
    obtain ⟨he14, het_ne, het_nq⟩ := lexQuoted1_inv _ _ _ hq2
    obtain ⟨w8, d8, he15, hws8, hd8⟩ := ws_split p2.2
    rw [hd8] at h
    rw [Option.bind_eq_some] at h
    obtain ⟨r16, hch4, h⟩ := h
    have he16 := lexCh_inv _ _ _ hch4
    obtain ⟨w9, d9, he17, hws9, hd9⟩ := ws_split r16
    rw [hd9] at h
    rw [Option.bind_eq_some] at h
    obtain ⟨r18, hlit3, h⟩ := h
    have he18 := lexLit_inv _ _ _ hlit3
    obtain ⟨w10, d10, he19, hws10, hd10⟩ := ws_split r18
    rw [hd10] at h
    rw [Option.bind_eq_some] at h
    obtain ⟨r20, hch5, h⟩ := h
    have he20 := lexCh_inv _ _ _ hch5
    obtain ⟨w11, d11, he21, hws11, hd11⟩ := ws_split r20
    rw [hd11] at h
    rw [Option.map_eq_some'] at h
    obtain ⟨pb, hval, hout⟩ := h
    have hinj : p1.1 = st ∧ p2.1 = et ∧ pb.1 = body ∧ pb.2 = rest := by
      have h1 := congrArg (fun x => x.1.1) hout
      have h2 := congrArg (fun x => x.1.2.1) hout
      have h3 := congrArg (fun x => x.1.2.2) hout
      have h4 := congrArg (fun x => x.2) hout
      exact ⟨h1, h2, h3, h4⟩
    obtain ⟨hst, het, hbody, hrest⟩ := hinj
    have hpb : pb = (body, rest) := Prod.ext hbody hrest
    rw [hpb] at hval
    have hval2 := matchTextValue_inv _ _ _ hval
    refine ⟨w1, w2, w3, w4, w5, w6, w7, w8, w9, w10, w11,
      hws1, hws2, hws3, hws4, hws5, hws6, hws7, hws8, hws9, hws10, hws11,
      ?_, ?_, ?_, ?_, ?_⟩
    · rw [← hst]; exact hst_ne
    · rw [← hst]; exact hst_nq
    · rw [← het]; exact het_ne
    · rw [← het]; exact het_nq
    · rw [← hst, ← het]
      rcases hval2 with ⟨hd11eq, hok⟩ | ⟨hd11eq, hok⟩
      · refine Or.inl ⟨?_, hok⟩
        rw [he1, he2, he3, he4, he5, he6, he7, he8, he9, he10, he11, he12,
          he13, he14, he15, he16, he17, he18, he19, he20, he21, hd11eq]
        simp [List.append_assoc]
      · refine Or.inr ⟨?_, hok⟩
        rw [he1, he2, he3, he4, he5, he6, he7, he8, he9, he10, he11, he12,
          he13, he14, he15, he16, he17, he18, he19, he20, he21, hd11eq]
        simp [List.append_assoc]

/-- Claim C10: tier 3 recovers a fragment only if it has the exact shape
`Tier3Shape` — opening brace, the double-quoted keys `"startTime"`,
`"endTime"`, `"text"` in exactly that order separated only by whitespace,
colons and commas, non-empty double-quoted timestamp values, and a double-
or single-quoted text value; in particular fragments with the keys
reordered, with single-quoted keys, with a key interposed, with an empty
timestamp value, or with an unquoted timestamp value are never recovered
(shown on representative fragments). -/
theorem c10_tier3_shape_only :
    (∀ l st et body rest, matchSegAt l = some ((st, et, body), rest) →
        Tier3Shape l st et body rest) ∧
    scrapeL (String.data
      "\x7b\"endTime\": \"00:00:02.000\", \"startTime\": \"00:00:01.000\", \"text\": \"c\"\x7d") = [] ∧
    scrapeL (String.data
      "\x7b\x27startTime\x27: \x27a\x27, \x27endTime\x27: \x27b\x27, \x27text\x27: \x27c\x27\x7d") = [] ∧
    scrapeL (String.data
      "\x7b\"startTime\": \"a\", \"id\": 1, \"endTime\": \"b\", \"text\": \"c\"\x7d") = [] ∧
    scrapeL (String.data
      "\x7b\"startTime\": \"\", \"endTime\": \"b\", \"text\": \"c\"\x7d") = [] ∧
    scrapeL (String.data
      "\x7b\"startTime\": 1.5, \"endTime\": \"b\", \"text\": \"c\"\x7d") = [] :=
  ⟨fun l st et body rest h => matchSegAt_shape l st et body rest h,
    rfl, rfl, rfl, rfl, rfl⟩

/-- Witness for C10: a concrete fragment that tier 3 does match is of the
exact shape. -/
theorem c10_tier3_shape_only_witness :
    Tier3Shape
      (String.data "\x7b\"startTime\": \"1\", \"endTime\": \"2\", \"text\": \"x\"\x7d tail")
      ['1'] ['2'] ['x'] (String.data "\x7d tail") :=
  c10_tier3_shape_only.1 _ ['1'] ['2'] ['x'] _ (by rfl)

lemma lexLit_self (lit : List Char) : ∀ rest, lexLit lit (lit ++ rest) = some rest := by
  induction lit with
  | nil => intro rest; simp [lexLit]
  | cons c cs ih => intro rest; simp [lexLit, ih]

lemma takeWhile_append_of_all (p : Char → Bool) (A B : List Char)
    (h : ∀ c ∈ A, p c = true) :
    (A ++ B).takeWhile p = A ++ B.takeWhile p := by
  induction A with
  | nil => simp
  | cons a A ih =>
    simp only [List.cons_append, List.takeWhile_cons, h a (by simp)]
    simp [ih (fun c hc => h c (by simp [hc]))]

lemma dropWhile_append_of_all (p : Char → Bool) (A B : List Char)
    (h : ∀ c ∈ A, p c = true) :
    (A ++ B).dropWhile p = B.dropWhile p := by
  induction A with
  | nil => simp
  | cons a A ih =>
    simp only [List.cons_append, List.dropWhile_cons, h a (by simp)]
    exact ih (fun c hc => h c (by simp [hc]))

lemma dropWhile_append_split (p : Char → Bool) (X Z : List Char) :
    (X ++ Z).dropWhile p =
      (if X.dropWhile p = [] then Z.dropWhile p else X.dropWhile p ++ Z) := by
  induction X with
  | nil => simp
  | cons x X ih =>
    by_cases hx : p x = true
    · simpa [List.dropWhile_cons, hx] using ih
    · simp [List.dropWhile_cons, hx]

lemma numChar_of_digit {c : Char} (h : c.isDigit = true) : numChar c = true := by
  simp [numChar, h]

lemma expTail_chars {l : List Char} (h : expTail l = true) :
    ∀ c ∈ l, numChar c = true := by
  match l with
  | [] => simp [expTail] at h
  | c0 :: r =>
    simp only [expTail] at h
    by_cases hs : (c0 = '+' || c0 = '-') = true
    · rw [if_pos hs] at h
      simp only [Bool.and_eq_true, List.all_eq_true] at h
      intro x hx
      rcases List.mem_cons.mp hx with hx | hx
      · subst hx
        rcases Bool.or_eq_true_iff.mp hs with h1 | h1 <;>
          · rw [decide_eq_true_eq.mp h1]; decide
      · exact numChar_of_digit (h.2 x hx)
    · rw [if_neg hs] at h
      simp only [List.all_eq_true] at h
      intro x hx
      exact numChar_of_digit (h x hx)

lemma validExp_chars {l : List Char} (h : validExp l = true) :
    ∀ c ∈ l, numChar c = true := by
  match l with
  | [] => intro c hc; simp at hc
  | c0 :: r =>
    simp only [validExp] at h
    by_cases he : (c0 = 'e' || c0 = 'E') = true
    · rw [if_pos he] at h
      intro x hx
      rcases List.mem_cons.mp hx with hx | hx
      · subst hx
        rcases Bool.or_eq_true_iff.mp he with h1 | h1 <;>
          · rw [decide_eq_true_eq.mp h1]; decide
      · exact expTail_chars h x hx
    · rw [if_neg he] at h
      exact absurd h (by simp)

lemma validFrac_chars {l : List Char} (h : validFrac l = true) :
    ∀ c ∈ l, numChar c = true := by
  match l with
  | [] => intro c hc; simp at hc
  | c0 :: r =>
    simp only [validFrac] at h
    by_cases hp : c0 = '.'
    · rw [if_pos hp] at h
      simp only [Bool.and_eq_true] at h
      intro x hx
      rcases List.mem_cons.mp hx with hx | hx
      · subst hx; rw [hp]; decide
      · have hsplit := List.takeWhile_append_dropWhile Char.isDigit r
        rw [← hsplit] at hx
        rcases List.mem_append.mp hx with hx | hx
        · exact numChar_of_digit (List.mem_takeWhile_imp hx)
        · exact validExp_chars h.2 x hx
    · rw [if_neg hp] at h
      exact validExp_chars h

lemma validInt_chars {l : List Char} (h : validInt l = true) :
    ∀ c ∈ l, numChar c = true := by
  match l with
  | [] => simp [validInt] at h
  | c0 :: r =>
    simp only [validInt] at h
    by_cases h0 : c0 = '0'
    · rw [if_pos h0] at h
      intro x hx
      rcases List.mem_cons.mp hx with hx | hx
      · subst hx; rw [h0]; decide
      · exact validFrac_chars h x hx
    · rw [if_neg h0] at h
      by_cases hd : c0.isDigit = true
      · rw [if_pos hd] at h
        intro x hx
        have hsplit := List.takeWhile_append_dropWhile Char.isDigit (c0 :: r)
        rw [← hsplit] at hx
        rcases List.mem_append.mp hx with hx | hx
        · exact numChar_of_digit (List.mem_takeWhile_imp hx)
        · exact validFrac_chars h x hx
      · rw [if_neg hd] at h
        exact absurd h (by simp)

lemma validNum_chars {l : List Char} (h : validNum l = true) :
    ∀ c ∈ l, numChar c = true := by
  match l with
  | [] => simp [validNum] at h
  | c0 :: r =>
    simp only [validNum] at h
    by_cases hm : c0 = '-'
    · rw [if_pos hm] at h
      intro x hx
      rcases List.mem_cons.mp hx with hx | hx
      · subst hx; rw [hm]; decide
      · exact validInt_chars h x hx
    · rw [if_neg hm] at h
      exact validInt_chars h

lemma validNum_head {l : List Char} (h : validNum l = true) :
    ∃ c t, l = c :: t ∧ (c.isDigit = true ∨ c = '-') := by
  match l with
  | [] => simp [validNum] at h
  | c0 :: r =>
    simp only [validNum] at h
    by_cases hm : c0 = '-'
    · exact ⟨c0, r, rfl, Or.inr hm⟩
    · rw [if_neg hm] at h
      refine ⟨c0, r, rfl, Or.inl ?_⟩
      simp only [validInt] at h
      by_cases h0 : c0 = '0'
      · rw [h0]; decide
      · rw [if_neg h0] at h
        by_cases hd : c0.isDigit = true
        · exact hd
        · rw [if_neg hd] at h; exact absurd h (by simp)

lemma numHead_facts {c : Char} (h : c.isDigit = true ∨ c = '-') :
    isJWs c = false ∧ ¬c = 'n' ∧ ¬c = 't' ∧ ¬c = 'f' ∧ ¬c = '"' ∧
      ¬c = '[' ∧ ¬c = '\x7b' ∧ (c.isDigit || c = '-') = true := by
  rcases h with h | h
  · refine ⟨?_, ?_, ?_, ?_, ?_, ?_, ?_, by simp [h]⟩
    · cases hw : isJWs c with
      | false => rfl
      | true =>
        unfold isJWs at hw
        simp only [Bool.or_eq_true, decide_eq_true_eq] at hw
        rcases hw with ((h1 | h1) | h1) | h1 <;> subst h1 <;>
          exact absurd h (by decide)
    all_goals intro he; subst he; exact absurd h (by decide)
  · subst h
    refine ⟨by decide, by decide, by decide, by decide, by decide, by decide,
      by decide, by simp⟩

lemma digit_not_ws_j {c : Char} (h : c.isDigit = true) : isJWs c = false :=
  (numHead_facts (Or.inl h)).1

lemma serializeJ_head (v : JVal) (hwf : wfJ v = true) :
    ∃ c t, serializeJ v = c :: t ∧ isJWs c = false ∧ ¬c = ']' ∧ ¬c = '\x7d' := by
  match v with
  | .null => exact ⟨'n', ['u', 'l', 'l'], rfl, by decide, by decide, by decide⟩
  | .bool true => exact ⟨'t', ['r', 'u', 'e'], rfl, by decide, by decide, by decide⟩
  | .bool false => exact ⟨'f', ['a', 'l', 's', 'e'], rfl, by decide, by decide, by decide⟩
  | .num lex =>
    have hv : validNum lex = true := hwf
    obtain ⟨c, t, hl, hc⟩ := validNum_head hv
    refine ⟨c, t, by rw [show serializeJ (.num lex) = lex from rfl, hl], ?_, ?_, ?_⟩
    · rcases hc with hc | hc
      · exact digit_not_ws_j hc
      · subst hc; decide
    · rcases hc with hc | hc
      · intro he; subst he; exact absurd hc (by decide)
      · subst hc; decide
    · rcases hc with hc | hc
      · intro he; subst he; exact absurd hc (by decide)
      · subst hc; decide
  | .str s =>
    exact ⟨'"', escStr s ++ ['"'], rfl, by decide, by decide, by decide⟩
  | .arr es =>
    exact ⟨'[', serializeElems es ++ [']'], rfl, by decide, by decide, by decide⟩
  | .obj fs =>
    exact ⟨'\x7b', serializeFields fs ++ ['\x7d'], rfl, by decide, by decide, by decide⟩

lemma serializeJ_length_pos (v : JVal) (hwf : wfJ v = true) :
    1 ≤ (serializeJ v).length := by
  obtain ⟨c, t, hct, _⟩ := serializeJ_head v hwf
  rw [hct]
  simp

lemma hexDigitChar_round (m : Nat) (h : m < 16) : hexVal? (hexDigitChar m) = some m := by
  have hall : ∀ i : Fin 16, hexVal? (hexDigitChar i.val) = some i.val := by decide
  exact hall ⟨m, h⟩

lemma parseStrBody_escStr (s : List Char) :
    ∀ rest, parseStrBody (escStr s ++ '"' :: rest) = some (s, rest) := by
  induction s with
  | nil =>
    intro rest
    show parseStrBody ('"' :: rest) = some ([], rest)
    rw [parseStrBody.eq_def]
    simp
  | cons c cs ih =>
    intro rest
    by_cases hq : c = '"'
    · subst hq
      show parseStrBody ('\\' :: '"' :: (escStr cs ++ '"' :: rest)) = _
      rw [parseStrBody.eq_def]
      simp [escMap, ih rest]
    · by_cases hb : c = '\\'
      · subst hb
        show parseStrBody ('\\' :: '\\' :: (escStr cs ++ '"' :: rest)) = _
        rw [parseStrBody.eq_def]
        simp [escMap, ih rest]
      · by_cases h32 : c.toNat < 32
        · have hesc : escChar c =
              ['\\', 'u', '0', '0', hexDigitChar (c.toNat / 16), hexDigitChar (c.toNat % 16)] := by
            simp [escChar, hq, hb, h32]
          have h16a : c.toNat / 16 < 16 := by omega
          have h16b : c.toNat % 16 < 16 := Nat.mod_lt _ (by norm_num)
          show parseStrBody (escChar c ++ escStr cs ++ '"' :: rest) = _
          rw [hesc]
          simp only [List.cons_append, List.nil_append]
          rw [parseStrBody.eq_def]
          simp only []
          rw [if_neg (by decide : ¬('\\' : Char) = '"')]
          simp only [if_true]
          rw [show hexVal? '0' = some 0 from rfl,
            hexDigitChar_round _ h16a, hexDigitChar_round _ h16b]
          simp only [ih rest, Option.map_some']
          have hcode : 4096 * 0 + 256 * 0 + 16 * (c.toNat / 16) + c.toNat % 16 = c.toNat := by
            omega
          rw [hcode, Char.ofNat_toNat]
        · have hesc : escChar c = [c] := by simp [escChar, hq, hb, h32]
          show parseStrBody (escChar c ++ escStr cs ++ '"' :: rest) = _
          rw [hesc]
          simp only [List.cons_append, List.nil_append]
          rw [parseStrBody.eq_def]
          simp only []
          rw [if_neg hq, if_neg hb, if_neg h32]
          simp [ih rest]

lemma serializeElems_cons (v : JVal) (vs : List JVal) :
    serializeElems (v :: vs) =
      serializeJ v ++ (if vs.isEmpty then [] else ',' :: serializeElems vs) := by
  cases vs with
  | nil => simp [serializeElems]
  | cons v2 vs2 => simp [serializeElems]

lemma serializeFields_cons (k : List Char) (v : JVal) (fs : List (List Char × JVal)) :
    serializeFields ((k, v) :: fs) =
      '"' :: escStr k ++ '"' :: ':' :: serializeJ v ++
        (if fs.isEmpty then [] else ',' :: serializeFields fs) := by
  cases fs with
  | nil => simp [serializeFields]
  | cons kv2 fs2 =>
    match kv2 with
    | (k2, v2) => simp [serializeFields]

lemma restOkNum_rb (r : List Char) : restOkNum (']' :: r) = true := rfl

lemma restOkNum_comma (r : List Char) : restOkNum (',' :: r) = true := rfl

lemma restOkNum_ob (r : List Char) : restOkNum ('\x7d' :: r) = true := rfl

/-- Parse/serialize round trip, by induction on the parser fuel: parsing a
serialized well-formed value consumes exactly the serialized text.  The
`restOkNum` guard only matters for numbers, whose maximal-munch lexing must
not continue into the following text. -/
lemma roundtrip (fuel : Nat) :
    (∀ v rest, wfJ v = true → (serializeJ v).length ≤ fuel → restOkNum rest = true →
      parseVal fuel (serializeJ v ++ rest) = some (v, rest)) ∧
    (∀ es rest, wfElems es = true → es ≠ [] → (serializeElems es).length < fuel →
      parseElems fuel (serializeElems es ++ ']' :: rest) = some (es, rest)) ∧
    (∀ fs rest, wfFields fs = true → fs ≠ [] → (serializeFields fs).length < fuel →
      parseMembers fuel (serializeFields fs ++ '\x7d' :: rest) = some (fs, rest)) := by
  induction fuel with
  | zero =>
    refine ⟨?_, ?_, ?_⟩
    · intro v rest hwf hlen _
      have := serializeJ_length_pos v hwf
      omega
    · intro es rest _ _ hlen
      omega
    · intro fs rest _ _ hlen
      omega
  | succ f ih =>
    obtain ⟨ihv, ihe, ihf⟩ := ih
    refine ⟨?_, ?_, ?_⟩
    · intro v rest hwf hlen hrest
      match v with
      | .null =>
        show parseVal (f + 1) (String.data "null" ++ rest) = some (.null, rest)
        rw [parseVal.eq_def]
        simp only [List.cons_append, List.nil_append, String.data]
        rw [show List.dropWhile isJWs ('n' :: 'u' :: 'l' :: 'l' :: rest) =
            'n' :: 'u' :: 'l' :: 'l' :: rest from rfl]
        simp only [if_true]
        rw [show ('u' :: 'l' :: 'l' :: rest) = String.data "ull" ++ rest from rfl,
          lexLit_self]
        rfl
      | .bool true =>
        show parseVal (f + 1) (String.data "true" ++ rest) = some (.bool true, rest)
        rw [parseVal.eq_def]
        simp only [List.cons_append, List.nil_append, String.data]
        rw [show List.dropWhile isJWs ('t' :: 'r' :: 'u' :: 'e' :: rest) =
            't' :: 'r' :: 'u' :: 'e' :: rest from rfl]
        simp only [if_true]
        rw [if_neg (by decide : ¬('t' : Char) = 'n')]
        rw [show ('r' :: 'u' :: 'e' :: rest) = String.data "rue" ++ rest from rfl,
          lexLit_self]
        rfl
      | .bool false =>
        show parseVal (f + 1) (String.data "false" ++ rest) = some (.bool false, rest)
        rw [parseVal.eq_def]
        simp only [List.cons_append, List.nil_append, String.data]
        rw [show List.dropWhile isJWs ('f' :: 'a' :: 'l' :: 's' :: 'e' :: rest) =
            'f' :: 'a' :: 'l' :: 's' :: 'e' :: rest from rfl]
        simp only [if_true]
        rw [if_neg (by decide : ¬('f' : Char) = 'n'),
          if_neg (by decide : ¬('f' : Char) = 't')]
        rw [show ('a' :: 'l' :: 's' :: 'e' :: rest) = String.data "alse" ++ rest from rfl,
          lexLit_self]
        rfl
      | .str s =>
        show parseVal (f + 1) (('"' :: escStr s ++ ['"']) ++ rest) = some (.str s, rest)
        have hform : ('"' :: escStr s ++ ['"']) ++ rest = '"' :: (escStr s ++ '"' :: rest) := by
          simp
        rw [hform, parseVal.eq_def]
        simp only []
        rw [show List.dropWhile isJWs ('"' :: (escStr s ++ '"' :: rest)) =
            '"' :: (escStr s ++ '"' :: rest) from rfl]
        simp only []
        simp only [if_true]
        rw [parseStrBody_escStr s rest]
        rfl
      | .num lex =>
        have hv : validNum lex = true := hwf
        obtain ⟨c0, t, hlex, hc0⟩ := validNum_head hv
        obtain ⟨hws, hn, ht, hf2, hq, hlb, hob, hdash⟩ := numHead_facts hc0
        subst hlex
        show parseVal (f + 1) ((c0 :: t) ++ rest) = some (.num (c0 :: t), rest)
        rw [parseVal.eq_def]
        simp only [List.cons_append]
        rw [show List.dropWhile isJWs (c0 :: (t ++ rest)) = c0 :: (t ++ rest) from by
          simp [List.dropWhile_cons, hws]]
        simp only []
        rw [if_neg hn, if_neg ht, if_neg hf2, if_neg hq, if_neg hlb, if_neg hob,
          if_pos hdash]
        have hall : ∀ c ∈ c0 :: t, numChar c = true := validNum_chars hv
        have htk0 : rest.takeWhile numChar = [] := by
          cases rest with
          | nil => simp
          | cons b r2 =>
            have hb : numChar b = false := by
              have h2 : (!numChar b) = true := hrest
              simpa using h2
            simp [List.takeWhile_cons, hb]
        have hdp0 : rest.dropWhile numChar = rest := by
          cases rest with
          | nil => simp
          | cons b r2 =>
            have hb : numChar b = false := by
              have h2 : (!numChar b) = true := hrest
              simpa using h2
            simp [List.dropWhile_cons, hb]
        have htake : List.takeWhile numChar (c0 :: (t ++ rest)) = c0 :: t := by
          have h2 := takeWhile_append_of_all numChar (c0 :: t) rest hall
          simpa [htk0] using h2
        have hdrop : List.dropWhile numChar (c0 :: (t ++ rest)) = rest := by
          have h2 := dropWhile_append_of_all numChar (c0 :: t) rest hall
          simpa [hdp0] using h2
        rw [htake, hdrop, if_pos hv]
      | .arr [] =>
        show parseVal (f + 1) (('[' :: [] ++ [']']) ++ rest) = some (.arr [], rest)
        rw [show ('[' :: [] ++ [']']) ++ rest = '[' :: ']' :: rest from by simp]
        rw [parseVal.eq_def]
        simp only []
        rw [show List.dropWhile isJWs ('[' :: ']' :: rest) = '[' :: ']' :: rest from rfl]
        simp only []
        simp only [if_true]
        rw [show List.dropWhile isJWs (']' :: rest) = ']' :: rest from rfl]
        simp
      | .arr (v :: vs) =>
        have hwfe : wfElems (v :: vs) = true := hwf
        have hwv : wfJ v = true := by
          have h2 : (wfJ v && wfElems vs) = true := hwfe
          exact (Bool.and_eq_true_iff.mp h2).1
        have hlen2 : (serializeElems (v :: vs)).length < f := by
          have h2 : serializeJ (.arr (v :: vs)) =
              '[' :: (serializeElems (v :: vs) ++ [']']) := rfl
          rw [h2] at hlen
          simp only [List.length_cons, List.length_append, List.length_singleton] at hlen
          omega
        show parseVal (f + 1) (('[' :: serializeElems (v :: vs) ++ [']']) ++ rest) =
          some (.arr (v :: vs), rest)
        rw [show ('[' :: serializeElems (v :: vs) ++ [']']) ++ rest =
            '[' :: (serializeElems (v :: vs) ++ ']' :: rest) from by simp]
        rw [parseVal.eq_def]
        simp only []
        rw [show List.dropWhile isJWs ('[' :: (serializeElems (v :: vs) ++ ']' :: rest)) =
            '[' :: (serializeElems (v :: vs) ++ ']' :: rest) from rfl]
        simp only []
        simp only [if_true]
        obtain ⟨c0, t0, hhead, hnws, hnrb, hnob⟩ := serializeJ_head v hwv
        have hshape : serializeElems (v :: vs) ++ ']' :: rest =
            c0 :: (t0 ++ ((if vs.isEmpty then [] else ',' :: serializeElems vs) ++ ']' :: rest)) := by
          rw [serializeElems_cons, hhead]
          simp
        have hdw : List.dropWhile isJWs (serializeElems (v :: vs) ++ ']' :: rest) =
            serializeElems (v :: vs) ++ ']' :: rest := by
          calc List.dropWhile isJWs (serializeElems (v :: vs) ++ ']' :: rest)
              = List.dropWhile isJWs (c0 :: (t0 ++
                  ((if vs.isEmpty then [] else ',' :: serializeElems vs) ++ ']' :: rest))) := by
                rw [← hshape]
            _ = c0 :: (t0 ++
                  ((if vs.isEmpty then [] else ',' :: serializeElems vs) ++ ']' :: rest)) := by
                simp [List.dropWhile_cons, hnws]
            _ = serializeElems (v :: vs) ++ ']' :: rest := hshape.symm
        have hhq : (serializeElems (v :: vs) ++ ']' :: rest).head? = some c0 := by
          rw [hshape]; rfl
        rw [hdw, hhq]
        rw [if_neg (by simp [hnrb] : ¬(some c0 = some ']'))]
        rw [ihe (v :: vs) rest hwfe (by simp) hlen2]
        rfl
      | .obj [] =>
        show parseVal (f + 1) (('\x7b' :: [] ++ ['\x7d']) ++ rest) = some (.obj [], rest)
        rw [show ('\x7b' :: [] ++ ['\x7d']) ++ rest = '\x7b' :: '\x7d' :: rest from by simp]
        rw [parseVal.eq_def]
        simp only []
        rw [show List.dropWhile isJWs ('\x7b' :: '\x7d' :: rest) = '\x7b' :: '\x7d' :: rest from rfl]
        simp only []
        simp only [if_true]
        rw [show List.dropWhile isJWs ('\x7d' :: rest) = '\x7d' :: rest from rfl]
        simp
      | .obj (kv :: fs) =>
        have hwff : wfFields (kv :: fs) = true := hwf
        have hlen2 : (serializeFields (kv :: fs)).length < f := by
          have h2 : serializeJ (.obj (kv :: fs)) =
              '\x7b' :: (serializeFields (kv :: fs) ++ ['\x7d']) := rfl
          rw [h2] at hlen
          simp only [List.length_cons, List.length_append, List.length_singleton] at hlen
          omega
        show parseVal (f + 1) (('\x7b' :: serializeFields (kv :: fs) ++ ['\x7d']) ++ rest) =
          some (.obj (kv :: fs), rest)
        rw [show ('\x7b' :: serializeFields (kv :: fs) ++ ['\x7d']) ++ rest =
            '\x7b' :: (serializeFields (kv :: fs) ++ '\x7d' :: rest) from by simp]
        rw [parseVal.eq_def]
        simp only []
        rw [show List.dropWhile isJWs
              ('\x7b' :: (serializeFields (kv :: fs) ++ '\x7d' :: rest)) =
            '\x7b' :: (serializeFields (kv :: fs) ++ '\x7d' :: rest) from rfl]
        simp only []
        simp only [if_true]
        match kv with
        | (k, vv) =>
          have hshape : serializeFields ((k, vv) :: fs) ++ '\x7d' :: rest =
              '"' :: (escStr k ++ '"' :: ':' :: serializeJ vv ++
                ((if fs.isEmpty then [] else ',' :: serializeFields fs) ++ '\x7d' :: rest)) := by
            rw [serializeFields_cons]
            simp
          have hdw : List.dropWhile isJWs (serializeFields ((k, vv) :: fs) ++ '\x7d' :: rest) =
              serializeFields ((k, vv) :: fs) ++ '\x7d' :: rest := by
            calc List.dropWhile isJWs (serializeFields ((k, vv) :: fs) ++ '\x7d' :: rest)
                = List.dropWhile isJWs ('"' :: (escStr k ++ '"' :: ':' :: serializeJ vv ++
                    ((if fs.isEmpty then [] else ',' :: serializeFields fs) ++ '\x7d' :: rest))) := by
                  rw [← hshape]
              _ = '"' :: (escStr k ++ '"' :: ':' :: serializeJ vv ++
                    ((if fs.isEmpty then [] else ',' :: serializeFields fs) ++ '\x7d' :: rest)) := rfl
              _ = serializeFields ((k, vv) :: fs) ++ '\x7d' :: rest := hshape.symm
          have hhq : (serializeFields ((k, vv) :: fs) ++ '\x7d' :: rest).head? = some '"' := by
            rw [hshape]; rfl
          rw [hdw, hhq]
          rw [if_neg (by decide : ¬(some ('"' : Char) = some '\x7d'))]
          rw [ihf ((k, vv) :: fs) rest hwff (by simp) hlen2]
          rfl
    · intro es rest hwf hne hlen
      match es with
      | [] => exact absurd rfl hne
      | v :: vs =>
        have h2 : (wfJ v && wfElems vs) = true := hwf
        have hwv : wfJ v = true := (Bool.and_eq_true_iff.mp h2).1
        have hwvs : wfElems vs = true := (Bool.and_eq_true_iff.mp h2).2
        rw [parseElems.eq_def]
        simp only []
        have harg : serializeElems (v :: vs) ++ ']' :: rest =
            serializeJ v ++ ((if vs.isEmpty then [] else ',' :: serializeElems vs) ++ ']' :: rest) := by
          rw [serializeElems_cons]
          simp
        rw [harg]
        cases hvs : vs with
        | nil =>
          subst hvs
          simp only [List.isEmpty_nil, if_true, List.nil_append]
          have hslen : (serializeJ v).length ≤ f := by
            have h3 : serializeElems [v] = serializeJ v := rfl
            rw [h3] at hlen
            omega
          rw [ihv v (']' :: rest) hwv hslen (restOkNum_rb rest)]
          simp only [Option.some_bind]
          rw [show List.dropWhile isJWs (']' :: rest) = ']' :: rest from rfl]
          simp
        | cons v2 vs2 =>
          subst hvs
          simp only [List.isEmpty_cons, Bool.false_eq_true, if_false, List.cons_append]
          have hlen3 : (serializeJ v).length + 1 + (serializeElems (v2 :: vs2)).length
              = (serializeElems (v :: v2 :: vs2)).length := by
            rw [serializeElems_cons v (v2 :: vs2)]
            simp only [List.isEmpty_cons, Bool.false_eq_true, if_false]
            simp [List.length_append]
            omega
          have hslen : (serializeJ v).length ≤ f := by omega
          rw [ihv v (',' :: (serializeElems (v2 :: vs2) ++ ']' :: rest)) hwv hslen
            (restOkNum_comma _)]
          simp only [Option.some_bind]
          rw [show List.dropWhile isJWs (',' :: (serializeElems (v2 :: vs2) ++ ']' :: rest)) =
              ',' :: (serializeElems (v2 :: vs2) ++ ']' :: rest) from rfl]
          simp only [List.head?_cons, if_pos rfl, List.tail_cons]
          rw [ihe (v2 :: vs2) rest hwvs (by simp) (by omega)]
          rfl
    · intro fs rest hwf hne hlen
      match fs with
      | [] => exact absurd rfl hne
      | (k, vv) :: fs2 =>
        have h2 : (wfJ vv && wfFields fs2) = true := hwf
        have hwv : wfJ vv = true := (Bool.and_eq_true_iff.mp h2).1
        have hwfs : wfFields fs2 = true := (Bool.and_eq_true_iff.mp h2).2
        rw [parseMembers.eq_def]
        simp only []
        have harg : serializeFields ((k, vv) :: fs2) ++ '\x7d' :: rest =
            '"' :: (escStr k ++ '"' :: (':' :: (serializeJ vv ++
              ((if fs2.isEmpty then [] else ',' :: serializeFields fs2) ++ '\x7d' :: rest)))) := by
          rw [serializeFields_cons]
          simp
        rw [harg]
        rw [show List.dropWhile isJWs ('"' :: (escStr k ++ '"' :: (':' :: (serializeJ vv ++
            ((if fs2.isEmpty then [] else ',' :: serializeFields fs2) ++ '\x7d' :: rest))))) =
            '"' :: (escStr k ++ '"' :: (':' :: (serializeJ vv ++
            ((if fs2.isEmpty then [] else ',' :: serializeFields fs2) ++ '\x7d' :: rest)))) from rfl]
        simp only [List.head?_cons, if_pos rfl, List.tail_cons]
        rw [parseStrBody_escStr k]
        simp only [Option.some_bind]
        rw [show List.dropWhile isJWs (':' :: (serializeJ vv ++
            ((if fs2.isEmpty then [] else ',' :: serializeFields fs2) ++ '\x7d' :: rest))) =
            ':' :: (serializeJ vv ++
            ((if fs2.isEmpty then [] else ',' :: serializeFields fs2) ++ '\x7d' :: rest)) from rfl]
        simp only [List.head?_cons, if_pos rfl, List.tail_cons]
        cases hfs : fs2 with
        | nil =>
          subst hfs
          simp only [List.isEmpty_nil, if_true, List.nil_append]
          have hslen : (serializeJ vv).length ≤ f := by
            have h3 : serializeFields [(k, vv)] =
                '"' :: escStr k ++ '"' :: ':' :: serializeJ vv := rfl
            rw [h3] at hlen
            simp [List.length_append] at hlen
            omega
          rw [ihv vv ('\x7d' :: rest) hwv hslen (restOkNum_ob rest)]
          simp only [Option.some_bind]
          rw [show List.dropWhile isJWs ('\x7d' :: rest) = '\x7d' :: rest from rfl]
          simp only [List.head?_cons]
          rw [if_neg (by decide : ¬(some ('\x7d' : Char) = some ','))]
          simp
        | cons kv2 fs3 =>
          subst hfs
          simp only [List.isEmpty_cons, Bool.false_eq_true, if_false, List.cons_append]
          have hlen3 : (serializeFields ((k, vv) :: kv2 :: fs3)).length =
              (escStr k).length + (serializeJ vv).length +
                (serializeFields (kv2 :: fs3)).length + 4 := by
            rw [serializeFields_cons]
            simp [List.length_append, List.isEmpty_cons]
            omega
          have hslen : (serializeJ vv).length ≤ f := by omega
          rw [ihv vv (',' :: (serializeFields (kv2 :: fs3) ++ '\x7d' :: rest)) hwv hslen
            (restOkNum_comma _)]
          simp only [Option.some_bind]
          rw [show List.dropWhile isJWs (',' :: (serializeFields (kv2 :: fs3) ++ '\x7d' :: rest)) =
              ',' :: (serializeFields (kv2 :: fs3) ++ '\x7d' :: rest) from rfl]
          simp only [List.head?_cons, if_pos rfl, List.tail_cons]
          rw [ihf (kv2 :: fs3) rest hwfs (by simp) (by omega)]
          rfl

lemma jsonParse_serialize (v : JVal) (hwf : wfJ v = true) :
    jsonParseL (serializeJ v) = some v := by
  unfold jsonParseL
  have h := (roundtrip ((serializeJ v).length + 1)).1 v [] hwf (by omega) rfl
  rw [show serializeJ v ++ [] = serializeJ v from by simp] at h
  rw [h]
  simp

lemma lastIdxOf_none (c : Char) (l : List Char) (h : c ∉ l) : lastIdxOf c l = none := by
  induction l with
  | nil => rfl
  | cons x xs ih =>
    have hx : ¬x = c := by
      intro he
      exact h (by simp [he])
    have ht : c ∉ xs := fun hm => h (by simp [hm])
    simp [lastIdxOf, ih ht, hx]

lemma lastIdxOf_append_last (c : Char) (X Y : List Char) (h : c ∉ Y) :
    lastIdxOf c (X ++ c :: Y) = some X.length := by
  induction X with
  | nil => simp [lastIdxOf, lastIdxOf_none c Y h]
  | cons x xs ih => simp [lastIdxOf, ih]

lemma take_len_succ (X : List Char) (c : Char) (Y : List Char) :
    List.take (X.length + 1) (X ++ c :: Y) = X ++ [c] := by
  induction X with
  | nil => simp
  | cons x xs ih => simp [List.take_cons, ih]

lemma trimTrail_append_nonws (P : List Char) (a : Char) (ha : isJsWs a = false)
    (B : List Char) :
    trimTrail ((P ++ [a]) ++ B) = (P ++ [a]) ++ trimTrail B := by
  unfold trimTrail
  rw [List.reverse_append, List.reverse_append]
  simp only [List.reverse_singleton, List.singleton_append]
  rw [dropWhile_append_split isJsWs B.reverse (a :: P.reverse)]
  by_cases hB : B.reverse.dropWhile isJsWs = []
  · rw [if_pos hB, hB]
    simp [List.dropWhile_cons, ha]
  · rw [if_neg hB]
    simp [List.reverse_append]

lemma not_mem_trimTrail (c : Char) (q : List Char) (h : c ∉ q) : c ∉ trimTrail q := by
  intro hc
  unfold trimTrail at hc
  rw [List.mem_reverse] at hc
  exact h (List.mem_reverse.mp ((List.dropWhile_sublist isJsWs).mem hc))

lemma trimL_of_shape (A B : List Char)
    (hhead : ∃ h0 t, A = h0 :: t ∧ isJsWs h0 = false)
    (hlast : ∃ P a, A = P ++ [a] ∧ isJsWs a = false) :
    trimL (A ++ B) = A ++ trimTrail B := by
  obtain ⟨h0, t, hA1, hh0⟩ := hhead
  obtain ⟨P, a, hA2, ha⟩ := hlast
  unfold trimL
  have hd : (A ++ B).dropWhile isJsWs = A ++ B := by
    rw [hA1]
    simp [List.dropWhile_cons, hh0]
  rw [hd, hA2]
  have h2 := trimTrail_append_nonws P a ha B
  simpa using h2

lemma segDoc_eq (objs : List JVal) :
    serializeJ (.obj [(String.data "segments", .arr objs)]) =
      segDocPrefix objs ++ [']', '\x7d'] := by
  show '\x7b' :: serializeFields [(String.data "segments", .arr objs)] ++ ['\x7d'] = _
  rw [show serializeFields [(String.data "segments", .arr objs)] =
      '"' :: escStr (String.data "segments") ++ '"' :: ':' :: serializeJ (.arr objs) from rfl]
  rw [show serializeJ (.arr objs) = '[' :: serializeElems objs ++ [']'] from rfl]
  rw [show escStr (String.data "segments") = String.data "segments" from rfl]
  simp [segDocPrefix]

lemma serializeElems_obj_last (objs : List JVal) (hne : objs ≠ [])
    (hobj : ∀ o ∈ objs, ∃ fs, o = JVal.obj fs) :
    ∃ X, serializeElems objs = X ++ ['\x7d'] := by
  induction objs with
  | nil => exact absurd rfl hne
  | cons v vs ih =>
    cases vs with
    | nil =>
      obtain ⟨fs, hv⟩ := hobj v (by simp)
      subst hv
      exact ⟨'\x7b' :: serializeFields fs, by simp [serializeElems, serializeJ]⟩
    | cons v2 vs2 =>
      obtain ⟨X, hX⟩ := ih (by simp) (fun o ho => hobj o (List.mem_cons_of_mem _ ho))
      refine ⟨serializeJ v ++ ',' :: X, ?_⟩
      rw [serializeElems_cons]
      simp [hX]

lemma wf_segDoc (objs : List JVal) (hwf : wfElems objs = true) :
    wfJ (JVal.obj [(String.data "segments", JVal.arr objs)]) = true := by
  show (wfJ (JVal.arr objs) && wfFields []) = true
  have h1 : wfJ (JVal.arr objs) = wfElems objs := rfl
  simp [h1, hwf, wfFields]

lemma getSegments_segDoc (objs : List JVal) :
    getSegments (JVal.obj [(String.data "segments", JVal.arr objs)]) = some objs := by
  simp [getSegments, lookupLast]

/-- Claim C4, amended: if the input is the serialized document
`\x7b"segments":[o1,...,on]\x7d` with its closing `]\x7d` replaced by a
comma and a truncated fragment `q` that contains no closing brace, and the
direct parse of the (trimmed) input fails, then the truncation repair of
tier 2 recovers exactly `o1 ... on` in their original order. -/
theorem c4_truncation_repair (objs : List JVal) (q : List Char)
    (hne : objs ≠ []) (hwf : wfElems objs = true)
    (hobj : ∀ o ∈ objs, ∃ fs, o = JVal.obj fs)
    (hq : '\x7d' ∉ q)
    (hfail : jsonParseL (trimL (segDocPrefix objs ++ ',' :: q)) = none) :
    tryRepairJsonFn (segDocPrefix objs ++ ',' :: q) = .ok objs := by
  obtain ⟨X, hX⟩ := serializeElems_obj_last objs hne hobj
  have htrim : trimL (segDocPrefix objs ++ ',' :: q) =
      segDocPrefix objs ++ ',' :: trimTrail q := by
    have h1 : segDocPrefix objs ++ ',' :: q = (segDocPrefix objs ++ [',']) ++ q := by
      simp
    rw [h1, trimL_of_shape]
    · simp
    · refine ⟨'\x7b', (String.data "\"segments\":[" ++ serializeElems objs) ++ [','],
        ?_, by decide⟩
      show (String.data "\x7b\"segments\":[" ++ serializeElems objs) ++ [','] = _
      simp
    · exact ⟨segDocPrefix objs, ',', rfl, by decide⟩
  have h1 : tierOne (trimL (segDocPrefix objs ++ ',' :: q)) = none := by
    simp [tierOne, hfail]
  have hP : trimL (segDocPrefix objs ++ ',' :: q) =
      (String.data "\x7b\"segments\":[" ++ X) ++ '\x7d' :: (',' :: trimTrail q) := by
    rw [htrim]
    simp [segDocPrefix, hX]
  have hnm : '\x7d' ∉ (',' :: trimTrail q) := by
    intro hc
    rcases List.mem_cons.mp hc with hc | hc
    · exact absurd hc (by decide)
    · exact not_mem_trimTrail '\x7d' q hq hc
  have hlast : lastIdxOf '\x7d' (trimL (segDocPrefix objs ++ ',' :: q)) =
      some (String.data "\x7b\"segments\":[" ++ X).length := by
    rw [hP]
    exact lastIdxOf_append_last _ _ _ hnm
  have htake : (trimL (segDocPrefix objs ++ ',' :: q)).take
      ((String.data "\x7b\"segments\":[" ++ X).length + 1) =
      (String.data "\x7b\"segments\":[" ++ X) ++ ['\x7d'] := by
    rw [hP]
    exact take_len_succ _ _ _
  have hrepaired : ((String.data "\x7b\"segments\":[" ++ X) ++ ['\x7d']) ++ [']', '\x7d'] =
      segDocPrefix objs ++ [']', '\x7d'] := by
    simp [segDocPrefix, hX]
  have hparse : jsonParseL (segDocPrefix objs ++ [']', '\x7d']) =
      some (JVal.obj [(String.data "segments", JVal.arr objs)]) := by
    rw [← segDoc_eq]
    exact jsonParse_serialize _ (wf_segDoc objs hwf)
  have h2 : tierTwo (trimL (segDocPrefix objs ++ ',' :: q)) = some objs := by
    unfold tierTwo
    rw [hlast]
    simp only []
    rw [htake, hrepaired, hparse]
    simp only [Option.some_bind]
    exact getSegments_segDoc objs
  simp [tryRepairJsonFn, h1, h2]

/-- Witness for the amended C4: one complete object followed by a truncated
second object; tier 2 recovers exactly the complete object. -/
theorem c4_truncation_repair_witness :
    tryRepairJsonFn (segDocPrefix [JVal.obj [(String.data "a", JVal.num ['1'])]] ++
        ',' :: String.data "\x7b\"b\": 2") =
      .ok [JVal.obj [(String.data "a", JVal.num ['1'])]] :=
  c4_truncation_repair [JVal.obj [(String.data "a", JVal.num ['1'])]]
    (String.data "\x7b\"b\": 2") (by simp) (by rfl)
    (by intro o ho; rw [List.mem_singleton] at ho; exact ⟨_, ho⟩)
    (by decide) (by rfl)

/-- Counterexample to C4 as stated (see `c4BadInput`). -/
theorem c4_nested_truncation_failure :
    jsonParseL (trimL c4BadInput) = none ∧
      tierTwo (trimL c4BadInput) = none ∧
      tryRepairJsonFn c4BadInput = .error repairFailErr :=
  ⟨rfl, rfl, rfl⟩

lemma matchSegAt_shrinks (l : List Char) (m : List Char × List Char × List Char)
    (rest : List Char) (h : matchSegAt l = some (m, rest)) :
    rest.length < l.length := by
  obtain ⟨st, et, body⟩ := m
  obtain ⟨w1, w2, w3, w4, w5, w6, w7, w8, w9, w10, w11,
      h1, h2, h3, h4, h5, h6, h7, h8, h9, h10, h11,
      hst1, hst2, het1, het2, hcase⟩ := matchSegAt_shape l st et body rest h
  rcases hcase with ⟨he, h0⟩ | ⟨he, h0⟩
  all_goals
    rw [he]
    simp only [List.length_cons, List.length_append]
    omega

lemma scrapeAux_eq_posAux : ∀ fuel i l,
    scrapeAux fuel l = (scrapePosAux fuel i l).map Prod.fst := by
  intro fuel
  induction fuel with
  | zero => intro i l; rfl
  | succ fuel ih =>
    intro i l
    cases l with
    | nil => rfl
    | cons c cs =>
      cases hm : matchSegAt (c :: cs) with
      | none =>
        simp only [scrapeAux, scrapePosAux, hm]
        exact ih (i + 1) cs
      | some p =>
        obtain ⟨m, rest⟩ := p
        simp only [scrapeAux, scrapePosAux, hm, List.map_cons]
        exact congrArg (fun x => segOfMatch m :: x) (ih _ rest)

lemma scrapePosAux_bound_chain : ∀ fuel i l,
    (∀ x ∈ scrapePosAux fuel i l, i ≤ x.2) ∧
      List.Chain' (fun a b : JVal × Nat => a.2 < b.2) (scrapePosAux fuel i l) := by
  intro fuel
  induction fuel with
  | zero =>
    intro i l
    exact ⟨fun x hx => absurd hx (by simp [scrapePosAux]), by simp [scrapePosAux]⟩
  | succ fuel ih =>
    intro i l
    cases l with
    | nil =>
      exact ⟨fun x hx => absurd hx (by simp [scrapePosAux]), by simp [scrapePosAux]⟩
    | cons c cs =>
      cases hm : matchSegAt (c :: cs) with
      | none =>
        have hres : scrapePosAux (fuel + 1) i (c :: cs) = scrapePosAux fuel (i + 1) cs := by
          simp only [scrapePosAux, hm]
        rw [hres]
        obtain ⟨hb, hc⟩ := ih (i + 1) cs
        exact ⟨fun x hx => Nat.le_trans (Nat.le_succ i) (hb x hx), hc⟩
      | some p =>
        obtain ⟨m, rest⟩ := p
        have hlt := matchSegAt_shrinks (c :: cs) m rest hm
        have hres : scrapePosAux (fuel + 1) i (c :: cs) =
            (segOfMatch m, i) ::
              scrapePosAux fuel (i + ((c :: cs).length - rest.length)) rest := by
          simp only [scrapePosAux, hm]
        rw [hres]
        obtain ⟨hb, hc⟩ := ih (i + ((c :: cs).length - rest.length)) rest
        constructor
        · intro x hx
          rcases List.mem_cons.mp hx with hx | hx
          · rw [hx]
          · exact Nat.le_trans (Nat.le_add_right i _) (hb x hx)
        · rw [List.chain'_cons']
          refine ⟨?_, hc⟩
          intro y hy
          have hmem : y ∈ scrapePosAux fuel (i + ((c :: cs).length - rest.length)) rest :=
            List.mem_of_mem_head? hy
          have hyb := hb y hmem
          show i < y.2
          omega

lemma mapSegsNorm_spec : ∀ segs ts, mapSegsNorm segs = .ok ts →
    ts.length = segs.length ∧
      ∀ i (h1 : i < segs.length) (h2 : i < ts.length),
        segNorm (segs.get ⟨i, h1⟩) = .ok (ts.get ⟨i, h2⟩) := by
  intro segs
  induction segs with
  | nil =>
    intro ts h
    have hts : (Except.ok [] : Except JsErr (List TSeg)) = Except.ok ts := h
    injection hts with hts2
    subst hts2
    exact ⟨rfl, fun i h1 h2 => absurd h1 (by simp at h1)⟩
  | cons s rest ih =>
    intro ts h
    unfold mapSegsNorm at h
    cases hs : segNorm s with
    | error e => rw [hs] at h; exact Except.noConfusion h
    | ok t =>
      rw [hs] at h
      simp only [] at h
      cases hr : mapSegsNorm rest with
      | error e => rw [hr] at h; exact Except.noConfusion h
      | ok ts2 =>
        rw [hr] at h
        simp only [] at h
        injection h with h2
        subst h2
        obtain ⟨hlen, hpos⟩ := ih ts2 hr
        refine ⟨by simp [hlen], ?_⟩
        intro i h1 h2
        cases i with
        | zero => exact hs
        | succ j =>
          exact hpos j (Nat.lt_of_succ_lt_succ h1) (Nat.lt_of_succ_lt_succ h2)

/-- Claim C6: recovery and normalization preserve the order of appearance
of segments and never insert, drop (on success), or deduplicate.  (1) Tier
1 returns the parsed `segments` array verbatim — shown for every serialized
document, including ones with duplicated or out-of-order entries; (2) the
tier-3 scrape output equals its position-instrumented variant projected to
values, and (3) the recorded match positions are strictly increasing, i.e.
segments are emitted in order of appearance in the text; (4) the
normalization map in `transcribeAudio` preserves length and maps each
position independently. -/
theorem c6_order_preservation :
    (∀ objs : List JVal, wfElems objs = true →
        tryRepairJsonFn
            (serializeJ (.obj [(String.data "segments", .arr objs)])) =
          .ok objs) ∧
    (∀ t, scrapeL t = (scrapePosL t).map Prod.fst) ∧
    (∀ t, List.Chain' (fun a b : JVal × Nat => a.2 < b.2) (scrapePosL t)) ∧
    (∀ segs ts, mapSegsNorm segs = .ok ts →
        ts.length = segs.length ∧
          ∀ i (h1 : i < segs.length) (h2 : i < ts.length),
            segNorm (segs.get ⟨i, h1⟩) = .ok (ts.get ⟨i, h2⟩)) := by
  refine ⟨?_, ?_, ?_, mapSegsNorm_spec⟩
  · intro objs hwf
    have ht0 : trimTrail [] = [] := rfl
    have htrim : trimL ((segDocPrefix objs ++ [']', '\x7d']) ++ []) =
        (segDocPrefix objs ++ [']', '\x7d']) ++ trimTrail [] := by
      apply trimL_of_shape
      · refine ⟨'\x7b', String.data "\"segments\":[" ++ serializeElems objs ++ [']', '\x7d'],
          ?_, by decide⟩
        show (String.data "\x7b\"segments\":[" ++ serializeElems objs) ++ [']', '\x7d'] = _
        simp
      · exact ⟨segDocPrefix objs ++ [']'], '\x7d', by simp, by decide⟩
    have htrim2 : trimL (segDocPrefix objs ++ [']', '\x7d']) =
        segDocPrefix objs ++ [']', '\x7d'] := by
      simpa [ht0] using htrim
    have hparse : jsonParseL (segDocPrefix objs ++ [']', '\x7d']) =
        some (JVal.obj [(String.data "segments", JVal.arr objs)]) := by
      rw [← segDoc_eq]
      exact jsonParse_serialize _ (wf_segDoc objs hwf)
    have h1 : tierOne (segDocPrefix objs ++ [']', '\x7d']) = some objs := by
      unfold tierOne
      rw [hparse]
      simp only [Option.some_bind]
      exact getSegments_segDoc objs
    rw [segDoc_eq]
    simp [tryRepairJsonFn, htrim2, h1]
  · intro t
    exact scrapeAux_eq_posAux t.length 0 t
  · intro t
    exact (scrapePosAux_bound_chain t.length 0 t).2

/-- Witness for C6: a document with the same object twice comes back with
both copies in order (no deduplication, no sorting), and the normalization
map sends the segment at position 0 to the normalization of exactly that
segment. -/
theorem c6_order_preservation_witness :
    tryRepairJsonFn (serializeJ (JVal.obj [(String.data "segments",
        JVal.arr [JVal.obj [(String.data "a", JVal.num ['1'])],
                  JVal.obj [(String.data "a", JVal.num ['1'])]])])) =
      .ok [JVal.obj [(String.data "a", JVal.num ['1'])],
           JVal.obj [(String.data "a", JVal.num ['1'])]] ∧
    segNorm (JVal.obj [(String.data "startTime", JVal.str (String.data "00:00:01.000")),
                       (String.data "endTime", JVal.str (String.data "00:00:02.000")),
                       (String.data "text", JVal.str (String.data "hi"))]) =
      .ok ⟨String.data "00:00:01.000", String.data "00:00:02.000", String.data "hi"⟩ :=
  ⟨c6_order_preservation.1
      [JVal.obj [(String.data "a", JVal.num ['1'])],
       JVal.obj [(String.data "a", JVal.num ['1'])]] (by rfl),
   (c6_order_preservation.2.2.2
      [JVal.obj [(String.data "startTime", JVal.str (String.data "00:00:01.000")),
                 (String.data "endTime", JVal.str (String.data "00:00:02.000")),
                 (String.data "text", JVal.str (String.data "hi"))]]
      [⟨String.data "00:00:01.000", String.data "00:00:02.000", String.data "hi"⟩]
      (by rfl)).2 0 (by decide) (by decide)⟩

/-- Claim C7: when the cancellation signal is set before the request
settles (`abortWins = true`, covering both a signal already set at call
time and one that fires while the request is in flight), the operation
settles with the `AbortError` rethrown unchanged — never the generic
"Transcription failed" wrapper — and never with a success value, regardless
of what the transport eventually returns. -/
theorem c7_cancellation (transport : Except JsErr GenResp) :
    transcribeAudioModel true transport = .error abortErr ∧
      abortErr.name = String.data "AbortError" ∧
      abortErr ≠ ⟨String.data "Error", String.data "Transcription failed"⟩ ∧
      ∀ segs, transcribeAudioModel true transport ≠ .ok segs := by
  have h1 : transcribeAudioModel true transport = .error abortErr := rfl
  refine ⟨h1, rfl, by decide, ?_⟩
  intro segs h
  rw [h1] at h
  exact Except.noConfusion h

/-- Witness for C7: cancellation wins over a transport success carrying a
perfectly valid response. -/
theorem c7_cancellation_witness :
    transcribeAudioModel true (.ok ⟨some (String.data "\x7b\"segments\": []\x7d")⟩) =
        .error abortErr ∧
      abortErr.name = String.data "AbortError" ∧
      abortErr ≠ ⟨String.data "Error", String.data "Transcription failed"⟩ :=
  ⟨(c7_cancellation (.ok ⟨some (String.data "\x7b\"segments\": []\x7d")⟩)).1,
    (c7_cancellation (.ok ⟨some (String.data "\x7b\"segments\": []\x7d")⟩)).2.1,
    (c7_cancellation (.ok ⟨some (String.data "\x7b\"segments\": []\x7d")⟩)).2.2.1⟩

/-- Claim C9: `translateSegments` applies no timestamp re-normalization —
on a response whose (fence-stripped) text parses as JSON with a truthy
`segments` property, it returns that parsed value verbatim; and on an
absent or empty response text it fails with the translation-specific
"Empty translation response" error. -/
theorem c9_translate_verbatim :
    (∀ t fs s, jsonParseL (stripFences (trimL t)) = some (.obj fs) →
        lookupLast fs (String.data "segments") = some s →
        jsTruthy s = true → t ≠ [] →
        translateSegmentsModel (some t) = .ok s) ∧
    translateSegmentsModel none = .error emptyTransErr ∧
    translateSegmentsModel (some []) = .error emptyTransErr := by
  refine ⟨?_, rfl, rfl⟩
  intro t fs s hp hl ht hne
  unfold translateSegmentsModel
  simp only []
  rw [if_neg hne, hp]
  simp only []
  rw [hl]
  simp only []
  rw [if_pos ht]

/-- Witness for C9: a well-formed translation response is returned exactly
as parsed. -/
theorem c9_translate_verbatim_witness :
    translateSegmentsModel (some (String.data "\x7b\"segments\": [\x7b\"a\": 1\x7d]\x7d")) =
      .ok (.arr [.obj [(String.data "a", .num ['1'])]]) :=
  c9_translate_verbatim.1 _
    [(String.data "segments", .arr [.obj [(String.data "a", .num ['1'])]])] _
    rfl rfl rfl (by decide)

end GeminiAudio

